import Mathlib

/-!
Verification of the change-log compaction engine and dispatch logic of
`backend_cli.py` (PoEDynamicLootFilter).

The Python code stores profile changes as a chain of `OrderedDict`s:
`function_name -> param1 -> ... -> last_param`.  We embed an `OrderedDict`
whose values are either a nested dict or a final string as an association
list of `Entry`; `OrderedDict` assignment `d[k] = v` overwrites in place
when the key is present (preserving its position) and appends otherwise,
which is exactly `upsert` below.  Python exceptions (KeyError, IndexError,
ValueError, TypeError) are modelled by `Option`/`Except`: `none`/`.error`
means the Python call raises and the surrounding command aborts.
-/

namespace DLF

/-- A value of the changes dict: either a leaf holding the final parameter
(a Python `str`) or a nested `OrderedDict` (held as an ordered association
list, mirroring `OrderedDict`'s insertion order). -/
inductive Entry where
  | leaf (v : String)
  | node (children : List (String × Entry))

/-- The chain-of-OrderedDicts type of `parsed_changes_dict`. -/
abbrev ChangesDict := List (String × Entry)

/-- The keys of an ordered association list, in iteration order. -/
def keysOf {κ α : Type} (l : List (κ × α)) : List κ := l.map Prod.fst

/-- First-match lookup: Python `d[k]` / `k in d` on a dict. -/
def lookupA {κ α : Type} [DecidableEq κ] : List (κ × α) → κ → Option α
  | [], _ => none
  | (k0, v0) :: rest, k => if k0 = k then some v0 else lookupA rest k

/-- Python `OrderedDict` assignment `d[k] = v`: overwrite in place if the
key is present (keeping its position), append at the end otherwise. -/
def upsert {κ α : Type} [DecidableEq κ] : List (κ × α) → κ → α → List (κ × α)
  | [], k, v => [(k, v)]
  | (k0, v0) :: rest, k, v =>
      if k0 = k then (k0, v) :: rest else (k0, v0) :: upsert rest k v

/-- The descent loop of `AddFunctionToChangesDict` (backend_cli.py:414-423),
recursing over the path `function_tokens[0..num_params_for_match]` with the
final leaf value.  At the last path component the leaf is assigned
(`current_dict[current_token] = function_tokens[i + 1]`); at inner
components the code descends, creating an empty `OrderedDict` when the key
is absent.  Descending into a leaf raises a TypeError in Python (`none`
here); with arities drawn from a fixed per-name table this never happens
(proved below). -/
def addPath : List String → String → ChangesDict → Option ChangesDict
  | [], _, _ => none
  | [key], last, d => some (upsert d key (.leaf last))
  | key :: key2 :: rest, last, d =>
      match lookupA d key with
      | some (.leaf _) => none
      | some (.node ch) =>
          (addPath (key2 :: rest) last ch).map (fun ch2 => upsert d key (.node ch2))
      | none =>
          (addPath (key2 :: rest) last []).map (fun ch2 => upsert d key (.node ch2))

/-- `AddFunctionToChangesDict` (backend_cli.py:409-424).  `info name` models
`kFunctionInfoMap[name]['NumParamsForMatch']` (`none` = KeyError).  The
token list must reach index `num_params_for_match + 1` (otherwise Python
raises IndexError, aborting the surrounding call). -/
def AddFunctionToChangesDict (info : String → Option Nat) (functionTokens : List String)
    (changesDict : ChangesDict) : Option ChangesDict :=
  match functionTokens with
  | [] => none
  | name :: _ =>
      match info name with
      | none => none
      | some k =>
          if h : k + 2 ≤ functionTokens.length then
            addPath (functionTokens.take (k + 1))
              (functionTokens.get ⟨k + 1, by omega⟩) changesDict
          else none

/-- The key/value view of a command's tokens: the trie path
`tokens[0..k]` and the stored leaf `tokens[k+1]`, where `k` is the
command's `NumParamsForMatch`.  `AddFunctionToChangesDict` depends on the
tokens only through this pair (tokens past index `k+1` are ignored). -/
def cmdKV (info : String → Option Nat) (tokens : List String) :
    Option (List String × String) :=
  match tokens with
  | [] => none
  | name :: _ =>
      match info name with
      | none => none
      | some k =>
          if h : k + 2 ≤ tokens.length then
            some (tokens.take (k + 1), tokens.get ⟨k + 1, by omega⟩)
          else none

mutual

/-- `ConvertChangesDictToFunctionListRec` (backend_cli.py:429-443) on a
single entry value (`changes_dict may just be final parameter`, in which
case it is a string). -/
def ConvertChangesDictToFunctionListRec (currentPrefixList : List String) :
    Entry → List (List String)
  | .leaf lastParam => [currentPrefixList ++ [lastParam]]
  | .node ch => ConvertChangesDictItems currentPrefixList ch

/-- The `for param, subdict in changes_dict.items()` loop of
`ConvertChangesDictToFunctionListRec`, visiting items in insertion order. -/
def ConvertChangesDictItems (currentPrefixList : List String) :
    List (String × Entry) → List (List String)
  | [] => []
  | (param, subdict) :: rest =>
      ConvertChangesDictToFunctionListRec (currentPrefixList ++ [param]) subdict ++
        ConvertChangesDictItems currentPrefixList rest

end

/-- Folding a sequence of commands (token lists) into the changes dict,
as the parse loop of `UpdateProfileChangesFile` does line by line. -/
def foldChanges (info : String → Option Nat) :
    List (List String) → ChangesDict → Option ChangesDict
  | [], d => some d
  | cmd :: rest, d =>
      match AddFunctionToChangesDict info cmd d with
      | none => none
      | some d2 => foldChanges info rest d2

/-- The key/value views of a whole command sequence (`none` as soon as one
command is ill-formed). -/
def cmdsKV (info : String → Option Nat) :
    List (List String) → Option (List (List String × String))
  | [] => some []
  | cmd :: rest =>
      match cmdKV info cmd, cmdsKV info rest with
      | some pv, some pvs => some (pv :: pvs)
      | _, _ => none

/-! ### Observation functions on the trie -/

/-- The leaf value stored at a full path, if any. -/
def leafAt (d : ChangesDict) : List String → Option String
  | [] => none
  | [key] =>
      match lookupA d key with
      | some (.leaf v) => some v
      | _ => none
  | key :: key2 :: rest =>
      match lookupA d key with
      | some (.node ch) => leafAt ch (key2 :: rest)
      | _ => none

/-- The iteration order of the trie level sitting at position `q`
(`q = []` is the top level; a position holding a leaf or nothing has no
children). -/
def keysAt (d : ChangesDict) : List String → List String
  | [] => keysOf d
  | key :: rest =>
      match lookupA d key with
      | some (.node ch) => keysAt ch rest
      | _ => []

mutual

/-- All root-to-leaf paths of an entry, with their leaf values, in
depth-first insertion order. -/
def entryPaths : Entry → List (List String × String)
  | .leaf v => [([], v)]
  | .node ch => childrenPaths ch

/-- All root-to-leaf paths of a dict, with their leaf values. -/
def childrenPaths : List (String × Entry) → List (List String × String)
  | [] => []
  | (key, e) :: rest =>
      (entryPaths e).map (fun pv => (key :: pv.1, pv.2)) ++ childrenPaths rest

end

/-! ### A total companion of `addPath`

On dicts whose leaf depths agree with a fixed per-name arity table, the
descent of `addPath` never meets a leaf mid-path, so it never raises; we
factor that case out into a total function `addP` and prove the two agree
on such dicts.  All ordering lemmas are stated for `addP`. -/

/-- The nested dict below `key`, or the empty dict if absent (or a leaf,
the case `addPath` refuses). -/
def childDict (d : ChangesDict) (key : String) : ChangesDict :=
  match lookupA d key with
  | some (.node ch) => ch
  | _ => []

/-- Total version of `addPath`; in the (unreachable under `EntryOk`)
mid-path-leaf case it descends into an empty dict. -/
def addP : List String → String → ChangesDict → ChangesDict
  | [], _, d => d
  | [key], last, d => upsert d key (.leaf last)
  | key :: key2 :: rest, last, d =>
      upsert d key (.node (addP (key2 :: rest) last (childDict d key)))

/-- Left fold of `addP` over (path, value) pairs. -/
def foldP : List (List String × String) → ChangesDict → ChangesDict
  | [], d => d
  | (p, v) :: rest, d => foldP rest (addP p v d)

/-- Structural well-formedness of an entry sitting `k` levels above its
leaves: leaves exactly at depth `k`, nonempty children lists, and no
duplicate keys at any level.  Reachable tries satisfy this with `k` the
`NumParamsForMatch` of the entry's command name. -/
inductive EntryOk : Nat → Entry → Prop where
  | leaf (v : String) : EntryOk 0 (.leaf v)
  | node (k : Nat) (ch : List (String × Entry)) (hne : ch ≠ [])
      (hnd : (keysOf ch).Nodup) (hall : ∀ e ∈ ch, EntryOk k e.2) :
      EntryOk (k + 1) (.node ch)

/-- Well-formedness of a whole changes dict relative to the arity table:
top-level keys are distinct command names and each subtree's leaf depth is
the name's `NumParamsForMatch`. -/
def DictOk (info : String → Option Nat) (d : ChangesDict) : Prop :=
  (keysOf d).Nodup ∧ ∀ e ∈ d, ∃ k, info e.1 = some k ∧ EntryOk k e.2

/-- A well-formed full path: a command name followed by exactly
`NumParamsForMatch` match parameters. -/
def PathOk (info : String → Option Nat) : List String → Prop
  | [] => False
  | name :: params => info name = some params.length

/-- Keep the first occurrence of every element, in order. -/
def firstOccsAux {α : Type} [DecidableEq α] (seen : List α) : List α → List α
  | [] => []
  | a :: rest =>
      if a ∈ seen then firstOccsAux seen rest
      else a :: firstOccsAux (a :: seen) rest

/-- First-occurrence deduplication preserving order. -/
def firstOccs {α : Type} [DecidableEq α] (l : List α) : List α :=
  firstOccsAux [] l

/-- The component of `p` immediately below the position `q`, when `p`
passes strictly through `q`. -/
def childComp : List String → List String → Option String
  | [], [] => none
  | [], c :: _ => some c
  | _ :: _, [] => none
  | a :: q2, b :: p2 => if a = b then childComp q2 p2 else none

/-- The sequence of children inserted at level `q` by a command sequence,
with repetitions, in command order. -/
def childSeq (q : List String) (pvs : List (List String × String)) : List String :=
  pvs.filterMap (fun pv => childComp q pv.1)

/-- The trailing value of the last command with key `p`, if any. -/
def lastVal (pvs : List (List String × String)) (p : List String) : Option String :=
  ((pvs.filter (fun pv => pv.1 = p)).getLast?).map Prod.snd

/-- The compaction of a command sequence: one pair per distinct key,
located at the key's first occurrence and carrying the key's last value. -/
def compactPairs (pvs : List (List String × String)) : List (List String × String) :=
  pvs.foldl (fun abs pv => upsert abs pv.1 pv.2) []

/-! ### Lemmas about `upsert` and `lookupA` -/

@[simp] theorem keysOf_nil {κ α : Type} : keysOf ([] : List (κ × α)) = [] := rfl

@[simp] theorem keysOf_cons {κ α : Type} (e : κ × α) (l : List (κ × α)) :
    keysOf (e :: l) = e.1 :: keysOf l := rfl

section AssocLemmas

variable {κ α : Type} [DecidableEq κ]

theorem lookupA_upsert_self (l : List (κ × α)) (k : κ) (v : α) :
    lookupA (upsert l k v) k = some v := by
  induction l with
  | nil => simp [upsert, lookupA]
  | cons e rest ih =>
      obtain ⟨k0, v0⟩ := e
      by_cases h : k0 = k <;> simp [upsert, lookupA, h, ih]

theorem lookupA_upsert_ne (l : List (κ × α)) {k k2 : κ} (v : α) (h : k2 ≠ k) :
    lookupA (upsert l k v) k2 = lookupA l k2 := by
  have h2 : k ≠ k2 := Ne.symm h
  induction l with
  | nil => simp [upsert, lookupA, h2]
  | cons e rest ih =>
      obtain ⟨k0, v0⟩ := e
      by_cases h0 : k0 = k
      · subst h0
        simp [upsert, lookupA, h2]
      · by_cases hk2 : k0 = k2 <;> simp [upsert, lookupA, h, h0, hk2, ih]

theorem keysOf_upsert_of_mem (l : List (κ × α)) {k : κ} (v : α) (h : k ∈ keysOf l) :
    keysOf (upsert l k v) = keysOf l := by
  induction l with
  | nil => simp at h
  | cons e rest ih =>
      obtain ⟨k0, v0⟩ := e
      by_cases h0 : k0 = k
      · simp [upsert, h0]
      · rw [keysOf_cons] at h
        simp only [List.mem_cons] at h
        rcases h with h | h
        · exact absurd h.symm h0
        · simp [upsert, h0, ih h]

theorem keysOf_upsert_of_not_mem (l : List (κ × α)) {k : κ} (v : α)
    (h : k ∉ keysOf l) : keysOf (upsert l k v) = keysOf l ++ [k] := by
  induction l with
  | nil => simp [upsert]
  | cons e rest ih =>
      obtain ⟨k0, v0⟩ := e
      rw [keysOf_cons] at h
      simp only [List.mem_cons] at h
      push_neg at h
      simp [upsert, Ne.symm h.1, ih h.2]

theorem upsert_upsert_same (l : List (κ × α)) (k : κ) (v w : α) :
    upsert (upsert l k w) k v = upsert l k v := by
  induction l with
  | nil => simp [upsert]
  | cons e rest ih =>
      obtain ⟨k0, v0⟩ := e
      by_cases h : k0 = k <;> simp [upsert, h, ih]

theorem upsert_comm (l : List (κ × α)) {k k2 : κ} (v v2 : α) (hne : k ≠ k2)
    (hmem : k ∈ keysOf l) :
    upsert (upsert l k v) k2 v2 = upsert (upsert l k2 v2) k v := by
  induction l with
  | nil => simp at hmem
  | cons e rest ih =>
      obtain ⟨k0, v0⟩ := e
      by_cases h0 : k0 = k
      · subst h0
        simp [upsert, hne, Ne.symm hne]
      · rw [keysOf_cons] at hmem
        simp only [List.mem_cons] at hmem
        rcases hmem with hmem | hmem
        · exact absurd hmem.symm h0
        · by_cases h2 : k0 = k2 <;>
            simp [upsert, h0, h2, hne, Ne.symm hne, ih hmem]

theorem keysOf_nodup_upsert (l : List (κ × α)) (k : κ) (v : α)
    (h : (keysOf l).Nodup) : (keysOf (upsert l k v)).Nodup := by
  by_cases hmem : k ∈ keysOf l
  · rw [keysOf_upsert_of_mem l v hmem]; exact h
  · rw [keysOf_upsert_of_not_mem l v hmem]
    simpa [List.nodup_append] using ⟨h, hmem⟩

theorem lookupA_isSome_iff_mem (l : List (κ × α)) (k : κ) :
    (lookupA l k).isSome = true ↔ k ∈ keysOf l := by
  induction l with
  | nil => simp [lookupA]
  | cons e rest ih =>
      obtain ⟨k0, v0⟩ := e
      by_cases h : k0 = k
      · simp [lookupA, h]
      · simp [lookupA, h, ih, Ne.symm h]

theorem lookupA_eq_some_mem {l : List (κ × α)} {k : κ} {v : α}
    (h : lookupA l k = some v) : (k, v) ∈ l := by
  induction l with
  | nil => simp [lookupA] at h
  | cons e rest ih =>
      obtain ⟨k0, v0⟩ := e
      by_cases h0 : k0 = k
      · subst h0
        simp [lookupA] at h
        simp [h]
      · simp [lookupA, h0] at h
        simp [ih h]

theorem mem_upsert {l : List (κ × α)} {k : κ} {v : α} {e : κ × α}
    (h : e ∈ upsert l k v) : e = (k, v) ∨ e ∈ l := by
  induction l with
  | nil =>
      simp only [upsert, List.mem_singleton] at h
      exact Or.inl h
  | cons e0 rest ih =>
      obtain ⟨k0, v0⟩ := e0
      by_cases h0 : k0 = k
      · subst h0
        simp only [upsert, if_pos rfl] at h
        rcases List.mem_cons.mp h with h1 | h1
        · exact Or.inl h1
        · exact Or.inr (List.mem_cons_of_mem _ h1)
      · simp only [upsert, if_neg h0] at h
        rcases List.mem_cons.mp h with h1 | h1
        · exact Or.inr (h1 ▸ List.mem_cons_self _ _)
        · rcases ih h1 with h2 | h2
          · exact Or.inl h2
          · exact Or.inr (List.mem_cons_of_mem _ h2)

theorem lookupA_eq_none_iff (l : List (κ × α)) (k : κ) :
    lookupA l k = none ↔ k ∉ keysOf l := by
  rw [← lookupA_isSome_iff_mem]
  cases lookupA l k <;> simp

end AssocLemmas

/-! ### Lemmas about `addP`, `leafAt` and `keysAt` -/

@[simp] theorem leafAt_nil_path (d : ChangesDict) : leafAt d [] = none := rfl

theorem childDict_upsert_self (d : ChangesDict) (a : String) (ch : ChangesDict) :
    childDict (upsert d a (.node ch)) a = ch := by
  simp [childDict, lookupA_upsert_self]

theorem childDict_upsert_ne (d : ChangesDict) {a b : String} (e : Entry) (h : b ≠ a) :
    childDict (upsert d a e) b = childDict d b := by
  simp [childDict, lookupA_upsert_ne _ _ h]

theorem leafAt_addP_self (p : List String) (v : String) (d : ChangesDict) (hp : p ≠ []) :
    leafAt (addP p v d) p = some v := by
  induction p generalizing d with
  | nil => exact absurd rfl hp
  | cons a ps ih =>
      cases ps with
      | nil => simp [addP, leafAt, lookupA_upsert_self]
      | cons b ps2 =>
          have h1 : lookupA (addP (a :: b :: ps2) v d) a
              = some (.node (addP (b :: ps2) v (childDict d a))) := by
            simp [addP, lookupA_upsert_self]
          simp [leafAt, h1, ih (childDict d a) (by simp)]

theorem leafAt_addP_nil_of_not_prefix (q : List String) (u : String) (p : List String)
    (hpq : ¬ p <+: q) (hqp : ¬ q <+: p) :
    leafAt (addP q u []) p = none := by
  induction q generalizing p with
  | nil => exact absurd (List.nil_prefix) hqp
  | cons b qs ih =>
      cases qs with
      | nil =>
          cases p with
          | nil => simp
          | cons a ps =>
              by_cases hab : a = b
              · subst hab
                cases ps with
                | nil => exact absurd (List.prefix_refl _) hpq
                | cons a2 ps2 => simp [addP, upsert, leafAt, lookupA]
              · cases ps <;> simp [addP, upsert, leafAt, lookupA, Ne.symm hab]
      | cons b2 qs2 =>
          cases p with
          | nil => simp
          | cons a ps =>
              by_cases hab : a = b
              · subst hab
                cases ps with
                | nil =>
                    exact absurd ⟨b2 :: qs2, rfl⟩ hpq
                | cons a2 ps2 =>
                    have hpq2 : ¬ (a2 :: ps2) <+: (b2 :: qs2) := by
                      intro h; exact hpq (List.cons_prefix_cons.mpr ⟨rfl, h⟩)
                    have hqp2 : ¬ (b2 :: qs2) <+: (a2 :: ps2) := by
                      intro h; exact hqp (List.cons_prefix_cons.mpr ⟨rfl, h⟩)
                    have hlook : lookupA (addP (a :: b2 :: qs2) u []) a
                        = some (.node (addP (b2 :: qs2) u (childDict [] a))) := by
                      simp [addP, lookupA_upsert_self]
                    simp [leafAt, hlook, childDict, lookupA, ih _ hpq2 hqp2]
              · cases ps <;> simp [addP, upsert, leafAt, lookupA, Ne.symm hab, childDict]

theorem leafAt_addP_of_not_prefix (q : List String) (u : String) (p : List String)
    (d : ChangesDict) (hpq : ¬ p <+: q) (hqp : ¬ q <+: p) :
    leafAt (addP q u d) p = leafAt d p := by
  induction q generalizing p d with
  | nil => exact absurd (List.nil_prefix) hqp
  | cons b qs ih =>
      cases qs with
      | nil =>
          cases p with
          | nil => simp
          | cons a ps =>
              by_cases hab : a = b
              · subst hab
                cases ps with
                | nil => exact absurd (List.prefix_refl _) hpq
                | cons a2 ps2 =>
                    have hlook : lookupA (addP [a] u d) a = some (.leaf u) := by
                      simp [addP, lookupA_upsert_self]
                    exact absurd ⟨a2 :: ps2, rfl⟩ hqp
              · cases ps <;>
                  simp [addP, leafAt, lookupA_upsert_ne _ _ hab]
      | cons b2 qs2 =>
          cases p with
          | nil => simp
          | cons a ps =>
              by_cases hab : a = b
              · subst hab
                cases ps with
                | nil => exact absurd ⟨b2 :: qs2, rfl⟩ hpq
                | cons a2 ps2 =>
                    have hpq2 : ¬ (a2 :: ps2) <+: (b2 :: qs2) := by
                      intro h; exact hpq (List.cons_prefix_cons.mpr ⟨rfl, h⟩)
                    have hqp2 : ¬ (b2 :: qs2) <+: (a2 :: ps2) := by
                      intro h; exact hqp (List.cons_prefix_cons.mpr ⟨rfl, h⟩)
                    have hlook : lookupA (addP (a :: b2 :: qs2) u d) a
                        = some (.node (addP (b2 :: qs2) u (childDict d a))) := by
                      simp [addP, lookupA_upsert_self]
                    cases hl : lookupA d a with
                    | none =>
                        simp only [leafAt, hlook, hl]
                        have : childDict d a = [] := by simp [childDict, hl]
                        rw [this]
                        exact leafAt_addP_nil_of_not_prefix _ _ _ hpq2 hqp2
                    | some e =>
                        cases e with
                        | leaf w =>
                            simp only [leafAt, hlook, hl]
                            have : childDict d a = [] := by simp [childDict, hl]
                            rw [this]
                            exact leafAt_addP_nil_of_not_prefix _ _ _ hpq2 hqp2
                        | node ch =>
                            simp only [leafAt, hlook, hl]
                            have : childDict d a = ch := by simp [childDict, hl]
                            rw [this]
                            exact ih _ _ hpq2 hqp2
              · cases ps <;>
                  simp [addP, leafAt, lookupA_upsert_ne _ _ hab]

@[simp] theorem keysAt_nil_path (d : ChangesDict) : keysAt d [] = keysOf d := rfl

theorem present_single {d : ChangesDict} {a : String}
    (h : (leafAt d [a]).isSome) : ∃ w, lookupA d a = some (.leaf w) := by
  cases hl : lookupA d a with
  | none => simp [leafAt, hl] at h
  | some e =>
      cases e with
      | leaf w => exact ⟨w, rfl⟩
      | node ch => simp [leafAt, hl] at h

theorem present_cons {d : ChangesDict} {a a2 : String} {ps2 : List String}
    (h : (leafAt d (a :: a2 :: ps2)).isSome) :
    ∃ ca, lookupA d a = some (.node ca) ∧ (leafAt ca (a2 :: ps2)).isSome := by
  cases hl : lookupA d a with
  | none => simp [leafAt, hl] at h
  | some e =>
      cases e with
      | leaf w => simp [leafAt, hl] at h
      | node ch =>
          refine ⟨ch, rfl, ?_⟩
          simpa [leafAt, hl] using h

theorem present_head {d : ChangesDict} {a : String} {ps : List String}
    (h : (leafAt d (a :: ps)).isSome) : a ∈ keysOf d := by
  cases ps with
  | nil =>
      obtain ⟨w, hw⟩ := present_single h
      exact (lookupA_isSome_iff_mem d a).mp (by simp [hw])
  | cons a2 ps2 =>
      obtain ⟨ca, hca, _⟩ := present_cons h
      exact (lookupA_isSome_iff_mem d a).mp (by simp [hca])

theorem addP_addP_same (p : List String) (v w : String) (d : ChangesDict) :
    addP p v (addP p w d) = addP p v d := by
  induction p generalizing d with
  | nil => simp [addP]
  | cons a ps ih =>
      cases ps with
      | nil => simp [addP, upsert_upsert_same]
      | cons b ps2 =>
          have hcd : childDict (upsert d a
                (.node (addP (b :: ps2) w (childDict d a)))) a
              = addP (b :: ps2) w (childDict d a) := childDict_upsert_self _ _ _
          simp [addP, hcd, upsert_upsert_same, ih]

theorem addP_comm (p : List String) (v u : String) :
    ∀ (q : List String) (d : ChangesDict), (leafAt d p).isSome →
      ¬ p <+: q → ¬ q <+: p →
      addP q u (addP p v d) = addP p v (addP q u d) := by
  induction p with
  | nil => intro q d hpres _ _; simp at hpres
  | cons a ps ih =>
      intro q d hpres hpq hqp
      cases q with
      | nil => exact absurd List.nil_prefix hqp
      | cons b qs =>
          by_cases hab : a = b
          · subst hab
            cases ps with
            | nil =>
                cases qs with
                | nil => exact absurd (List.prefix_refl _) hpq
                | cons b2 qs2 => exact absurd ⟨b2 :: qs2, rfl⟩ hpq
            | cons a2 ps2 =>
                cases qs with
                | nil => exact absurd ⟨a2 :: ps2, rfl⟩ hqp
                | cons b2 qs2 =>
                    obtain ⟨ca, hca, hpres2⟩ := present_cons hpres
                    have hcd : childDict d a = ca := by simp [childDict, hca]
                    have hpq2 : ¬ (a2 :: ps2) <+: (b2 :: qs2) := by
                      intro h; exact hpq (List.cons_prefix_cons.mpr ⟨rfl, h⟩)
                    have hqp2 : ¬ (b2 :: qs2) <+: (a2 :: ps2) := by
                      intro h; exact hqp (List.cons_prefix_cons.mpr ⟨rfl, h⟩)
                    have key := ih (b2 :: qs2) ca hpres2 hpq2 hqp2
                    simp only [addP, hcd, childDict_upsert_self,
                      upsert_upsert_same, key]
          · have hamem : a ∈ keysOf d := present_head hpres
            have hba : b ≠ a := fun h => hab h.symm
            cases ps with
            | nil =>
                cases qs with
                | nil =>
                    simp only [addP]
                    exact upsert_comm d _ _ hab hamem
                | cons b2 qs2 =>
                    simp only [addP, childDict_upsert_ne _ _ hba,
                      childDict_upsert_ne _ _ hab]
                    exact upsert_comm d _ _ hab hamem
            | cons a2 ps2 =>
                cases qs with
                | nil =>
                    simp only [addP, childDict_upsert_ne _ _ hba,
                      childDict_upsert_ne _ _ hab]
                    exact upsert_comm d _ _ hab hamem
                | cons b2 qs2 =>
                    simp only [addP, childDict_upsert_ne _ _ hba,
                      childDict_upsert_ne _ _ hab]
                    exact upsert_comm d _ _ hab hamem

theorem upsert_ne_nil {κ α : Type} [DecidableEq κ] (l : List (κ × α)) (k : κ) (v : α) :
    upsert l k v ≠ [] := by
  cases l with
  | nil => simp [upsert]
  | cons e rest =>
      obtain ⟨k0, v0⟩ := e
      by_cases h : k0 = k <;> simp [upsert, h]

theorem upsert_eq_append_of_not_mem {κ α : Type} [DecidableEq κ]
    {l : List (κ × α)} {k : κ} (v : α) (h : k ∉ keysOf l) :
    upsert l k v = l ++ [(k, v)] := by
  induction l with
  | nil => simp [upsert]
  | cons e rest ih =>
      obtain ⟨k0, v0⟩ := e
      rw [keysOf_cons] at h
      simp only [List.mem_cons] at h
      push_neg at h
      simp [upsert, Ne.symm h.1, ih h.2]

theorem mem_keysOf_upsert_iff {κ α : Type} [DecidableEq κ]
    (l : List (κ × α)) (k k2 : κ) (v : α) :
    k2 ∈ keysOf (upsert l k v) ↔ k2 = k ∨ k2 ∈ keysOf l := by
  by_cases hmem : k ∈ keysOf l
  · rw [keysOf_upsert_of_mem l v hmem]
    constructor
    · exact Or.inr
    · rintro (rfl | h)
      · exact hmem
      · exact h
  · rw [keysOf_upsert_of_not_mem l v hmem]
    simp [or_comm]

/-- `addPath` agrees with its total companion on well-formed dicts: the
descent never meets a leaf mid-path. -/
theorem addPath_eq_addP (p : List String) (v : String) :
    ∀ ch : ChangesDict, p ≠ [] →
      (∀ e ∈ ch, EntryOk (p.length - 1) e.2) →
      addPath p v ch = some (addP p v ch) := by
  induction p with
  | nil => intro ch h _; exact absurd rfl h
  | cons a ps ih =>
      intro ch _ hok
      cases ps with
      | nil => simp [addPath, addP]
      | cons a2 ps2 =>
          cases hl : lookupA ch a with
          | none =>
              have hcd : childDict ch a = [] := by simp [childDict, hl]
              simp only [addPath, hl, addP, hcd]
              rw [ih _ (by simp) (by intro e he; cases he)]
              rfl
          | some e =>
              cases e with
              | leaf w =>
                  have hmem := lookupA_eq_some_mem hl
                  have hok2 := hok _ hmem
                  have hlen : (a :: a2 :: ps2).length - 1 = ps2.length + 1 := by
                    simp
                  rw [hlen] at hok2
                  cases hok2
              | node ch2 =>
                  have hmem := lookupA_eq_some_mem hl
                  have hok2 := hok _ hmem
                  have hlen : (a :: a2 :: ps2).length - 1 = ps2.length + 1 := by
                    simp
                  rw [hlen] at hok2
                  cases hok2 with
                  | node _ _ hne hnd hall =>
                      have hcd : childDict ch a = ch2 := by simp [childDict, hl]
                      simp only [addPath, hl, addP, hcd]
                      rw [ih _ (by simp) (by simpa using hall)]
                      rfl

/-- `addP` preserves well-formedness below one entry. -/
theorem addP_entryOk (p : List String) (v : String) :
    ∀ ch : ChangesDict, p ≠ [] →
      (keysOf ch).Nodup → (∀ e ∈ ch, EntryOk (p.length - 1) e.2) →
      (addP p v ch ≠ [] ∧ (keysOf (addP p v ch)).Nodup ∧
        ∀ e ∈ addP p v ch, EntryOk (p.length - 1) e.2) := by
  induction p with
  | nil => intro ch h _ _; exact absurd rfl h
  | cons a ps ih =>
      intro ch _ hnd hok
      cases ps with
      | nil =>
          refine ⟨upsert_ne_nil _ _ _, keysOf_nodup_upsert _ _ _ hnd, ?_⟩
          intro e he
          rcases mem_upsert he with rfl | he2
          · exact EntryOk.leaf v
          · exact hok _ he2
      | cons a2 ps2 =>
          have hlen : (a :: a2 :: ps2).length - 1 = ps2.length + 1 := by simp
          have hlen2 : (a2 :: ps2).length - 1 = ps2.length := by simp
          have hsub : (keysOf (childDict ch a)).Nodup ∧
              ∀ e ∈ childDict ch a, EntryOk ps2.length e.2 := by
            cases hl : lookupA ch a with
            | none => simp [childDict, hl]
            | some e =>
                cases e with
                | leaf w =>
                    have hok2 := hok _ (lookupA_eq_some_mem hl)
                    rw [hlen] at hok2
                    cases hok2
                | node ch2 =>
                    have hok2 := hok _ (lookupA_eq_some_mem hl)
                    rw [hlen] at hok2
                    cases hok2 with
                    | node _ _ hne2 hnd2 hall2 =>
                        rw [show childDict ch a = ch2 from by simp [childDict, hl]]
                        exact ⟨hnd2, hall2⟩
          obtain ⟨hin1, hin2, hin3⟩ :=
            ih (childDict ch a) (by simp) hsub.1 (by rw [hlen2]; exact hsub.2)
          refine ⟨upsert_ne_nil _ _ _, keysOf_nodup_upsert _ _ _ hnd, ?_⟩
          intro e he
          rcases mem_upsert he with rfl | he2
          · rw [hlen]
            exact EntryOk.node ps2.length _ hin1 hin2 (by rw [← hlen2]; exact hin3)
          · exact hok _ he2

/-- `addP` preserves `DictOk` when inserting a well-formed path. -/
theorem dictOk_addP (info : String → Option Nat) (p : List String) (v : String)
    (d : ChangesDict) (hp : PathOk info p) (hok : DictOk info d) :
    DictOk info (addP p v d) := by
  obtain ⟨hnd, hent⟩ := hok
  cases p with
  | nil => exact absurd hp (by simp [PathOk])
  | cons name params =>
      have hinfo : info name = some params.length := hp
      cases params with
      | nil =>
          refine ⟨keysOf_nodup_upsert _ _ _ hnd, ?_⟩
          intro e he
          rcases mem_upsert he with rfl | he2
          · exact ⟨0, hinfo, EntryOk.leaf v⟩
          · exact hent _ he2
      | cons p1 ps =>
          have hlen2 : (p1 :: ps).length - 1 = ps.length := by simp
          have hsub : (keysOf (childDict d name)).Nodup ∧
              ∀ e ∈ childDict d name, EntryOk ps.length e.2 := by
            cases hl : lookupA d name with
            | none => simp [childDict, hl]
            | some e =>
                cases e with
                | leaf w =>
                    obtain ⟨k, hk, hek⟩ := hent _ (lookupA_eq_some_mem hl)
                    rw [hinfo] at hk
                    cases hek with
                    | leaf => simp at hk
                | node ch2 =>
                    obtain ⟨k, hk, hek⟩ := hent _ (lookupA_eq_some_mem hl)
                    rw [hinfo] at hk
                    cases hek with
                    | node k2 _ hne2 hnd2 hall2 =>
                        have : k2 = ps.length := by
                          have : k2 + 1 = (p1 :: ps).length := by
                            injection hk.symm
                          simpa using this
                        subst this
                        rw [show childDict d name = ch2 from by simp [childDict, hl]]
                        exact ⟨hnd2, hall2⟩
          obtain ⟨hin1, hin2, hin3⟩ :=
            addP_entryOk (p1 :: ps) v (childDict d name) (by simp) hsub.1
              (by rw [hlen2]; exact hsub.2)
          refine ⟨keysOf_nodup_upsert _ _ _ hnd, ?_⟩
          intro e he
          rcases mem_upsert he with rfl | he2
          · exact ⟨(p1 :: ps).length, hinfo,
              EntryOk.node ps.length _ hin1 hin2 (by rw [← hlen2]; exact hin3)⟩
          · exact hent _ he2

/-- `DictOk` of the empty dict. -/
theorem dictOk_nil (info : String → Option Nat) : DictOk info [] := by
  constructor
  · simp
  · intro e he; cases he

/-- On a well-formed dict, inserting a well-formed path never raises. -/
theorem addPath_eq_addP_dict (info : String → Option Nat) (p : List String)
    (v : String) (d : ChangesDict) (hp : PathOk info p) (hok : DictOk info d) :
    addPath p v d = some (addP p v d) := by
  obtain ⟨hnd, hent⟩ := hok
  cases p with
  | nil => exact absurd hp (by simp [PathOk])
  | cons name params =>
      have hinfo : info name = some params.length := hp
      cases params with
      | nil => simp [addPath, addP]
      | cons p1 ps =>
          cases hl : lookupA d name with
          | none =>
              have hcd : childDict d name = [] := by simp [childDict, hl]
              simp only [addPath, hl, addP, hcd]
              rw [addPath_eq_addP (p1 :: ps) v [] (by simp) (by intro e he; cases he)]
              rfl
          | some e =>
              cases e with
              | leaf w =>
                  obtain ⟨k, hk, hek⟩ := hent _ (lookupA_eq_some_mem hl)
                  rw [hinfo] at hk
                  cases hek with
                  | leaf => simp at hk
              | node ch2 =>
                  obtain ⟨k, hk, hek⟩ := hent _ (lookupA_eq_some_mem hl)
                  rw [hinfo] at hk
                  cases hek with
                  | node k2 _ hne2 hnd2 hall2 =>
                      have hk2 : k2 = ps.length := by
                        have : k2 + 1 = (p1 :: ps).length := by injection hk.symm
                        simpa using this
                      subst hk2
                      have hcd : childDict d name = ch2 := by simp [childDict, hl]
                      simp only [addPath, hl, addP, hcd]
                      rw [addPath_eq_addP (p1 :: ps) v ch2 (by simp)
                        (by simpa using hall2)]
                      rfl

theorem cmdKV_pathOk {info : String → Option Nat} {tokens : List String}
    {p : List String} {v : String} (h : cmdKV info tokens = some (p, v)) :
    PathOk info p := by
  cases tokens with
  | nil => simp [cmdKV] at h
  | cons name rest =>
      cases hk : info name with
      | none => simp [cmdKV, hk] at h
      | some k =>
          simp only [cmdKV, hk] at h
          split at h
          · rename_i hle
            injection h with h2
            have hp : p = name :: rest.take k := by
              have := congrArg Prod.fst h2
              simpa [List.take_succ_cons] using this.symm
            subst hp
            simp only [PathOk, hk]
            congr 1
            simp only [List.length_cons, List.length_take] at hle ⊢
            omega
          · exact absurd h (by simp)

/-- `AddFunctionToChangesDict` seen through the key/value view. -/
theorem addFunction_eq_kv (info : String → Option Nat) (tokens : List String)
    (d : ChangesDict) :
    AddFunctionToChangesDict info tokens d =
      match cmdKV info tokens with
      | some (p, v) => addPath p v d
      | none => none := by
  cases tokens with
  | nil => rfl
  | cons name rest =>
      cases hk : info name with
      | none => simp [AddFunctionToChangesDict, cmdKV, hk]
      | some k =>
          simp only [AddFunctionToChangesDict, cmdKV, hk]
          split <;> rfl

/-- Totality and agreement of the command fold: on well-formed command
sequences the Python parse loop never raises, and the resulting trie is
the total fold of the key/value pairs. -/
theorem foldChanges_eq_foldP (info : String → Option Nat) :
    ∀ (cmds : List (List String)) (pvs : List (List String × String))
      (d : ChangesDict), cmdsKV info cmds = some pvs → DictOk info d →
      foldChanges info cmds d = some (foldP pvs d) := by
  intro cmds
  induction cmds with
  | nil =>
      intro pvs d h hok
      simp only [cmdsKV, Option.some_inj] at h
      subst h
      rfl
  | cons cmd rest ih =>
      intro pvs d h hok
      cases hkv : cmdKV info cmd with
      | none => simp [cmdsKV, hkv] at h
      | some pv =>
          cases hrest : cmdsKV info rest with
          | none => simp [cmdsKV, hkv, hrest] at h
          | some pvs2 =>
              simp only [cmdsKV, hkv, hrest, Option.some_inj] at h
              subst h
              obtain ⟨p, v⟩ := pv
              have hpath := cmdKV_pathOk hkv
              have hstep : AddFunctionToChangesDict info cmd d
                  = some (addP p v d) := by
                rw [addFunction_eq_kv, hkv]
                exact addPath_eq_addP_dict info _ v d hpath hok
              simp only [foldChanges, hstep]
              exact ih pvs2 (addP p v d) hrest (dictOk_addP info p v d hpath hok)

theorem leafAt_addP_present_other (p : List String) (v : String) :
    ∀ (d : ChangesDict), (leafAt d p).isSome →
      ∀ q, q ≠ p → leafAt (addP p v d) q = leafAt d q := by
  induction p with
  | nil => intro d hpres; simp at hpres
  | cons a ps ih =>
      intro d hpres q hq
      cases ps with
      | nil =>
          obtain ⟨w, hw⟩ := present_single hpres
          cases q with
          | nil => simp
          | cons b qs =>
              by_cases hba : b = a
              · subst hba
                cases qs with
                | nil => exact absurd rfl hq
                | cons b2 qs2 =>
                    simp [addP, leafAt, lookupA_upsert_self, hw]
              · cases qs <;> simp [addP, leafAt, lookupA_upsert_ne _ _ hba]
      | cons a2 ps2 =>
          obtain ⟨ca, hca, hpres2⟩ := present_cons hpres
          have hcd : childDict d a = ca := by simp [childDict, hca]
          cases q with
          | nil => simp
          | cons b qs =>
              by_cases hba : b = a
              · subst hba
                cases qs with
                | nil => simp [addP, leafAt, lookupA_upsert_self, hca]
                | cons b2 qs2 =>
                    by_cases hqs : (b2 :: qs2) = (a2 :: ps2)
                    · exact absurd (by rw [hqs]) hq
                    · simp only [addP, hcd, leafAt, lookupA_upsert_self, hca]
                      exact ih ca hpres2 _ hqs
              · cases qs <;> simp [addP, leafAt, lookupA_upsert_ne _ _ hba]

theorem keysAt_addP_present (p : List String) (v : String) :
    ∀ (d : ChangesDict), (leafAt d p).isSome →
      ∀ q, keysAt (addP p v d) q = keysAt d q := by
  induction p with
  | nil => intro d hpres; simp at hpres
  | cons a ps ih =>
      intro d hpres q
      cases ps with
      | nil =>
          obtain ⟨w, hw⟩ := present_single hpres
          have hamem : a ∈ keysOf d := present_head hpres
          cases q with
          | nil => simp [addP, keysOf_upsert_of_mem _ _ hamem]
          | cons b qs =>
              by_cases hba : b = a
              · subst hba
                simp [addP, keysAt, lookupA_upsert_self, hw]
              · simp [addP, keysAt, lookupA_upsert_ne _ _ hba]
      | cons a2 ps2 =>
          obtain ⟨ca, hca, hpres2⟩ := present_cons hpres
          have hcd : childDict d a = ca := by simp [childDict, hca]
          have hamem : a ∈ keysOf d := present_head hpres
          cases q with
          | nil => simp [addP, keysOf_upsert_of_mem _ _ hamem]
          | cons b qs =>
              by_cases hba : b = a
              · subst hba
                simp only [addP, hcd, keysAt, lookupA_upsert_self, hca]
                exact ih ca hpres2 qs
              · simp [addP, keysAt, lookupA_upsert_ne _ _ hba]

/-! ### Compaction: the fold equals the fold of the compacted sequence -/

theorem foldP_append (l1 l2 : List (List String × String)) (d : ChangesDict) :
    foldP (l1 ++ l2) d = foldP l2 (foldP l1 d) := by
  induction l1 generalizing d with
  | nil => rfl
  | cons pv rest ih =>
      obtain ⟨p, v⟩ := pv
      simp [foldP, ih]

theorem foldP_addP_comm (p : List String) (v : String) :
    ∀ (pvs : List (List String × String)) (d : ChangesDict),
      (leafAt d p).isSome →
      (∀ pv ∈ pvs, ¬ p <+: pv.1 ∧ ¬ pv.1 <+: p) →
      foldP pvs (addP p v d) = addP p v (foldP pvs d) := by
  intro pvs
  induction pvs with
  | nil => intro d _ _; rfl
  | cons qu rest ih =>
      intro d hpres hsep
      obtain ⟨q, u⟩ := qu
      have hsq := hsep (q, u) (by simp)
      have hcomm := addP_comm p v u q d hpres hsq.1 hsq.2
      show foldP rest (addP q u (addP p v d)) = addP p v (foldP rest (addP q u d))
      rw [hcomm]
      refine ih (addP q u d) ?_ (fun pv hpv => hsep pv (by simp [hpv]))
      rw [ leafAt_addP_of_not_prefix q u p d hsq.1 hsq.2]
      exact hpres

theorem addP_foldP_update (p : List String) (v : String) :
    ∀ (abs : List (List String × String)) (d : ChangesDict),
      (keysOf abs).Nodup →
      (∀ pv ∈ abs, pv.1 ≠ []) →
      (∀ pv ∈ abs, ∀ pv2 ∈ abs,
        pv.1 = pv2.1 ∨ (¬ pv.1 <+: pv2.1 ∧ ¬ pv2.1 <+: pv.1)) →
      p ∈ keysOf abs →
      addP p v (foldP abs d) = foldP (upsert abs p v) d := by
  intro abs
  induction abs with
  | nil => intro d _ _ _ hmem; simp at hmem
  | cons qw rest ih =>
      intro d hnd hne hpair hmem
      obtain ⟨q, w⟩ := qw
      by_cases hqp : q = p
      · subst hqp
        have hup : upsert ((q, w) :: rest) q v = (q, v) :: rest := by
          simp [upsert]
        rw [hup]
        show addP q v (foldP rest (addP q w d)) = foldP rest (addP q v d)
        have hqne : q ≠ [] := hne (q, w) (by simp)
        have hqnotin : q ∉ keysOf rest := by
          rw [keysOf_cons] at hnd
          exact (List.nodup_cons.mp hnd).1
        have hsep : ∀ pv ∈ rest, ¬ q <+: pv.1 ∧ ¬ pv.1 <+: q := by
          intro pv hpv
          rcases hpair (q, w) (by simp) pv (by simp [hpv]) with heq | hcomp
          · have : q ∈ keysOf rest := by
              have hkm : pv.1 ∈ keysOf rest := List.mem_map.mpr ⟨pv, hpv, rfl⟩
              have hqq : q = pv.1 := heq
              rwa [← hqq] at hkm
            exact absurd this hqnotin
          · exact hcomp
        have hpres : (leafAt (addP q w d) q).isSome := by
          rw [leafAt_addP_self q w d hqne]; simp
        rw [← foldP_addP_comm q v rest (addP q w d) hpres hsep, addP_addP_same]
      · have hup : upsert ((q, w) :: rest) p v = (q, w) :: upsert rest p v := by
          simp [upsert, hqp]
        rw [hup]
        show addP p v (foldP rest (addP q w d)) = foldP (upsert rest p v) (addP q w d)
        have hmem2 : p ∈ keysOf rest := by
          rw [keysOf_cons] at hmem
          rcases List.mem_cons.mp hmem with h | h
          · exact absurd h.symm hqp
          · exact h
        exact ih (addP q w d) (List.nodup_cons.mp (by rwa [keysOf_cons] at hnd)).2
          (fun pv hpv => hne pv (by simp [hpv]))
          (fun pv hpv pv2 hpv2 => hpair pv (by simp [hpv]) pv2 (by simp [hpv2]))
          hmem2

theorem pathOk_nonempty {info : String → Option Nat} {p : List String}
    (hp : PathOk info p) : p ≠ [] := by
  cases p with
  | nil => exact absurd hp (by simp [PathOk])
  | cons a ps => simp

theorem pathOk_not_prefix {info : String → Option Nat} {p q : List String}
    (hp : PathOk info p) (hq : PathOk info q) (hne : p ≠ q) : ¬ p <+: q := by
  intro hpre
  cases p with
  | nil =>
      exact absurd hp (by simp [PathOk])
  | cons n ps =>
      cases q with
      | nil =>
          exact absurd (List.prefix_nil.mp hpre) (by simp)
      | cons m qs =>
          obtain ⟨hnm, hpre2⟩ := List.cons_prefix_cons.mp hpre
          subst hnm
          have hlp : info n = some ps.length := hp
          have hlq : info n = some qs.length := hq
          have hlen : ps.length = qs.length := by
            rw [hlp] at hlq
            injection hlq
          have : ps = qs := List.IsPrefix.eq_of_length hpre2 hlen
          exact hne (by rw [this])

theorem pathOk_pairwise {info : String → Option Nat} {p q : List String}
    (hp : PathOk info p) (hq : PathOk info q) :
    p = q ∨ (¬ p <+: q ∧ ¬ q <+: p) := by
  by_cases h : p = q
  · exact Or.inl h
  · exact Or.inr ⟨ pathOk_not_prefix hp hq h, pathOk_not_prefix hq hp (Ne.symm h)⟩

theorem compactPairs_append (pvs : List (List String × String))
    (pv : List String × String) :
    compactPairs (pvs ++ [pv]) = upsert (compactPairs pvs) pv.1 pv.2 := by
  simp [compactPairs, List.foldl_append]

theorem foldl_upsert_nodup (pvs : List (List String × String)) :
    ∀ abs : List (List String × String), (keysOf abs).Nodup →
      (keysOf (pvs.foldl (fun a pv => upsert a pv.1 pv.2) abs)).Nodup := by
  induction pvs with
  | nil => intro abs h; exact h
  | cons pv rest ih =>
      intro abs h
      exact ih _ (keysOf_nodup_upsert _ _ _ h)

theorem compactPairs_nodup (pvs : List (List String × String)) :
    (keysOf (compactPairs pvs)).Nodup :=
  foldl_upsert_nodup pvs [] (by simp)

theorem mem_keysOf_foldl_upsert (pvs : List (List String × String)) :
    ∀ (abs : List (List String × String)) (p : List String),
      (p ∈ keysOf (pvs.foldl (fun a pv => upsert a pv.1 pv.2) abs) ↔
        p ∈ keysOf abs ∨ p ∈ keysOf pvs) := by
  induction pvs with
  | nil => intro abs p; simp
  | cons qu rest ih =>
      intro abs p
      obtain ⟨q, u⟩ := qu
      rw [List.foldl_cons]
      rw [ih (upsert abs q u) p]
      rw [mem_keysOf_upsert_iff]
      rw [keysOf_cons]
      simp only [List.mem_cons]
      tauto

theorem mem_keysOf_compactPairs (pvs : List (List String × String)) (p : List String) :
    p ∈ keysOf (compactPairs pvs) ↔ p ∈ keysOf pvs := by
  have := mem_keysOf_foldl_upsert pvs [] p
  simpa [compactPairs] using this

theorem mem_foldl_upsert_keys (pvs : List (List String × String)) :
    ∀ (abs : List (List String × String)) (e : List String × String),
      e ∈ pvs.foldl (fun a pv => upsert a pv.1 pv.2) abs →
      e.1 ∈ keysOf abs ∨ e.1 ∈ keysOf pvs := by
  induction pvs with
  | nil =>
      intro abs e he
      exact Or.inl (List.mem_map.mpr ⟨e, he, rfl⟩)
  | cons qu rest ih =>
      intro abs e he
      obtain ⟨q, u⟩ := qu
      rw [List.foldl_cons] at he
      rcases ih (upsert abs q u) e he with h | h
      · rw [mem_keysOf_upsert_iff] at h
        rcases h with h | h
        · exact Or.inr (by simp [h])
        · exact Or.inl h
      · exact Or.inr (by simp [h])

theorem mem_compactPairs_keys {pvs : List (List String × String)}
    {e : List String × String} (he : e ∈ compactPairs pvs) : e.1 ∈ keysOf pvs := by
  rcases mem_foldl_upsert_keys pvs [] e he with h | h
  · simp at h
  · exact h

theorem lastVal_append (pvs : List (List String × String)) (q : List String)
    (u : String) (p : List String) :
    lastVal (pvs ++ [(q, u)]) p = if p = q then some u else lastVal pvs p := by
  by_cases hpq : p = q
  · subst hpq
    simp [lastVal, List.filter_append]
  · have : ((q, u) : List String × String).1 = p ↔ False := by simp [Ne.symm hpq]
    simp only [lastVal, List.filter_append]
    rw [if_neg hpq]
    have hfe : List.filter (fun pv => decide (pv.1 = p)) [(q, u)] = [] := by
      simp [Ne.symm hpq]
    rw [hfe, List.append_nil]

theorem lookupA_compactPairs_eq_lastVal (pvs : List (List String × String)) :
    ∀ p, lookupA (compactPairs pvs) p = lastVal pvs p := by
  induction pvs using List.reverseRecOn with
  | nil => intro p; simp [compactPairs, lastVal, lookupA]
  | append_singleton l qu ih =>
      intro p
      obtain ⟨q, u⟩ := qu
      rw [compactPairs_append, lastVal_append]
      by_cases hpq : p = q
      · subst hpq
        simp [lookupA_upsert_self]
      · rw [lookupA_upsert_ne _ _ hpq, if_neg hpq]
        exact ih p

/-- Core compaction theorem: folding a well-formed command sequence into
the trie gives exactly the trie of the compacted sequence, in which each
distinct key appears once, at its first-insertion position, carrying its
last value. -/
theorem foldP_eq_foldP_compact (info : String → Option Nat) :
    ∀ pvs : List (List String × String),
      (∀ pv ∈ pvs, PathOk info pv.1) →
      foldP pvs [] = foldP (compactPairs pvs) [] := by
  intro pvs
  induction pvs using List.reverseRecOn with
  | nil => intro _; rfl
  | append_singleton l pv ih =>
      intro hgood
      obtain ⟨p, v⟩ := pv
      have hgl : ∀ pv2 ∈ l, PathOk info pv2.1 := fun pv2 h => hgood pv2 (by simp [h])
      have hgp : PathOk info p := hgood (p, v) (by simp)
      have hkeyOk : ∀ e ∈ compactPairs l, PathOk info e.1 := by
        intro e he
        obtain ⟨pv2, hpv2, hkey⟩ := List.mem_map.mp (mem_compactPairs_keys he)
        exact hkey ▸ hgl pv2 hpv2
      rw [foldP_append, compactPairs_append]
      show foldP [(p, v)] (foldP l []) = foldP (upsert (compactPairs l) p v) []
      have hstep : foldP [(p, v)] (foldP l []) = addP p v (foldP l []) := rfl
      rw [hstep, ih hgl]
      by_cases hmem : p ∈ keysOf (compactPairs l)
      · exact addP_foldP_update p v (compactPairs l) [] (compactPairs_nodup l)
          (fun pv2 hpv2 => pathOk_nonempty (hkeyOk pv2 hpv2))
          (fun pv2 hpv2 pv3 hpv3 =>
            pathOk_pairwise (hkeyOk pv2 hpv2) (hkeyOk pv3 hpv3))
          hmem
      · rw [upsert_eq_append_of_not_mem v hmem, foldP_append]
        rfl

/-! ### Leaf paths of the trie -/

theorem mem_childrenPaths_iff (d : ChangesDict) (pv : List String × String) :
    pv ∈ childrenPaths d ↔
      ∃ k e, (k, e) ∈ d ∧ ∃ qp ∈ entryPaths e, pv = (k :: qp.1, qp.2) := by
  induction d with
  | nil => simp [childrenPaths]
  | cons ke rest ih =>
      obtain ⟨key, e⟩ := ke
      simp only [childrenPaths, List.mem_append, List.mem_map, ih,
        List.mem_cons]
      constructor
      · rintro (⟨qp, hqp, rfl⟩ | ⟨k, e2, hmem, qp, hqp, rfl⟩)
        · exact ⟨key, e, Or.inl rfl, qp, hqp, rfl⟩
        · exact ⟨k, e2, Or.inr hmem, qp, hqp, rfl⟩
      · rintro ⟨k, e2, hmem | hmem, qp, hqp, rfl⟩
        · injection hmem with h1 h2
          subst h1
          subst h2
          exact Or.inl ⟨qp, hqp, rfl⟩
        · exact Or.inr ⟨k, e2, hmem, qp, hqp, rfl⟩

theorem lookupA_entryPaths_mem {d : ChangesDict} {a : String} {e : Entry}
    (hl : lookupA d a = some e) :
    ∀ qp ∈ entryPaths e, ((a :: qp.1, qp.2) : List String × String) ∈ childrenPaths d := by
  intro qp hqp
  exact (mem_childrenPaths_iff d _).mpr ⟨a, e, lookupA_eq_some_mem hl, qp, hqp, rfl⟩

theorem childrenPaths_addP_subset (p : List String) (v : String) :
    ∀ (d : ChangesDict) (pv : List String × String),
      pv ∈ childrenPaths (addP p v d) → pv = (p, v) ∨ pv ∈ childrenPaths d := by
  induction p with
  | nil => intro d pv h; exact Or.inr h
  | cons a ps ih =>
      intro d pv h
      cases ps with
      | nil =>
          obtain ⟨k, e, hmem, qp, hqp, rfl⟩ := (mem_childrenPaths_iff _ _).mp h
          rcases mem_upsert hmem with heq | hold
          · injection heq with h1 h2
            subst h1
            subst h2
            simp only [entryPaths, List.mem_singleton] at hqp
            subst hqp
            exact Or.inl rfl
          · exact Or.inr ((mem_childrenPaths_iff d _).mpr ⟨k, e, hold, qp, hqp, rfl⟩)
      | cons a2 ps2 =>
          obtain ⟨k, e, hmem, qp, hqp, rfl⟩ := (mem_childrenPaths_iff _ _).mp h
          rcases mem_upsert hmem with heq | hold
          · injection heq with h1 h2
            subst h2
            simp only [entryPaths] at hqp
            rcases ih (childDict d a) qp hqp with heq2 | hold2
            · subst heq2
              exact Or.inl (by rw [h1])
            · refine Or.inr ?_
              rw [h1]
              cases hl : lookupA d a with
              | none =>
                  rw [show childDict d a = [] from by simp [childDict, hl]] at hold2
                  cases hold2
              | some e2 =>
                  cases e2 with
                  | leaf w =>
                      rw [show childDict d a = [] from by simp [childDict, hl]] at hold2
                      cases hold2
                  | node ch2 =>
                      rw [show childDict d a = ch2 from by simp [childDict, hl]] at hold2
                      exact lookupA_entryPaths_mem hl qp hold2
          · exact Or.inr ((mem_childrenPaths_iff d _).mpr ⟨k, e, hold, qp, hqp, rfl⟩)

theorem childrenPaths_foldP_subset :
    ∀ (pvs : List (List String × String)) (d : ChangesDict)
      (pv : List String × String), pv ∈ childrenPaths (foldP pvs d) →
      pv ∈ childrenPaths d ∨ pv.1 ∈ keysOf pvs := by
  intro pvs
  induction pvs with
  | nil => intro d pv h; exact Or.inl h
  | cons qu rest ih =>
      intro d pv h
      obtain ⟨q, u⟩ := qu
      rcases ih (addP q u d) pv h with h2 | h2
      · rcases childrenPaths_addP_subset q u d pv h2 with rfl | h3
        · exact Or.inr (by simp)
        · exact Or.inl h3
      · exact Or.inr (by simp [h2])

theorem leafAt_some_mem_paths :
    ∀ (p : List String) (d : ChangesDict) (v : String),
      leafAt d p = some v → ((p, v) : List String × String) ∈ childrenPaths d := by
  intro p
  induction p with
  | nil => intro d v h; simp at h
  | cons a ps ih =>
      intro d v h
      cases ps with
      | nil =>
          cases hl : lookupA d a with
          | none => simp [leafAt, hl] at h
          | some e =>
              cases e with
              | leaf w =>
                  have hv : w = v := by simpa [leafAt, hl] using h
                  subst hv
                  exact lookupA_entryPaths_mem hl ([], w) (by simp [entryPaths])
              | node ch => simp [leafAt, hl] at h
      | cons a2 ps2 =>
          cases hl : lookupA d a with
          | none => simp [leafAt, hl] at h
          | some e =>
              cases e with
              | leaf w => simp [leafAt, hl] at h
              | node ch =>
                  have h2 : leafAt ch (a2 :: ps2) = some v := by
                    simpa [leafAt, hl] using h
                  exact lookupA_entryPaths_mem hl (a2 :: ps2, v)
                    (by simpa [entryPaths] using ih ch v h2)

theorem mem_childrenPaths_head {d : ChangesDict} {q : List String}
    (h : q ∈ (childrenPaths d).map Prod.fst) :
    ∃ k qs, q = k :: qs ∧ k ∈ keysOf d := by
  obtain ⟨pv, hpv, rfl⟩ := List.mem_map.mp h
  obtain ⟨k, e, hmem, qp, _, rfl⟩ := (mem_childrenPaths_iff d pv).mp hpv
  exact ⟨k, qp.1, rfl, List.mem_map.mpr ⟨(k, e), hmem, rfl⟩⟩

theorem childrenPaths_keys_nodup :
    ∀ ch : ChangesDict, (keysOf ch).Nodup →
      (∀ e ∈ ch, ((entryPaths e.2).map Prod.fst).Nodup) →
      ((childrenPaths ch).map Prod.fst).Nodup := by
  intro ch
  induction ch with
  | nil => intro _ _; simp [childrenPaths]
  | cons ke rest ih =>
      intro hnd hall
      obtain ⟨key, e⟩ := ke
      rw [keysOf_cons] at hnd
      obtain ⟨hkey, hnd2⟩ := List.nodup_cons.mp hnd
      simp only [childrenPaths, List.map_append]
      rw [List.nodup_append]
      refine ⟨?_, ih hnd2 (fun e2 he2 => hall e2 (by simp [he2])), ?_⟩
      · have h1 := hall (key, e) (by simp)
        have heq : ((entryPaths e).map
              (fun pv : List String × String => (key :: pv.1, pv.2))).map Prod.fst
            = ((entryPaths e).map Prod.fst).map (fun q => key :: q) := by
          simp [List.map_map]
        rw [heq]
        exact List.Nodup.map (fun x y hxy => by injection hxy) h1
      · intro x hx hx2
        obtain ⟨k, qs, rfl, hk⟩ := mem_childrenPaths_head hx2
        obtain ⟨y, hy, hxy⟩ := List.mem_map.mp hx
        obtain ⟨qp, hqp, rfl⟩ := List.mem_map.mp hy
        simp only at hxy
        have hkk : k = key := by
          have := congrArg (fun l : List String => l.headI) hxy
          simpa using this.symm
        exact hkey (hkk ▸ hk)

theorem entryOk_paths_nodup {k : Nat} {e : Entry} (h : EntryOk k e) :
    ((entryPaths e).map Prod.fst).Nodup := by
  induction h with
  | leaf v => simp [entryPaths]
  | node k2 ch hne hnd hall ih =>
      show ((childrenPaths ch).map Prod.fst).Nodup
      exact childrenPaths_keys_nodup ch hnd ih

theorem dictOk_paths_nodup {info : String → Option Nat} {d : ChangesDict}
    (h : DictOk info d) : ((childrenPaths d).map Prod.fst).Nodup := by
  refine childrenPaths_keys_nodup d h.1 (fun e2 he2 => ?_)
  obtain ⟨k, _, hek⟩ := h.2 e2 he2
  exact entryOk_paths_nodup hek

theorem dictOk_foldP (info : String → Option Nat) :
    ∀ (pvs : List (List String × String)) (d : ChangesDict),
      DictOk info d → (∀ pv ∈ pvs, PathOk info pv.1) →
      DictOk info (foldP pvs d) := by
  intro pvs
  induction pvs with
  | nil => intro d h _; exact h
  | cons pv rest ih =>
      intro d h hgood
      obtain ⟨p, v⟩ := pv
      exact ih (addP p v d)
        (dictOk_addP info p v d (hgood (p, v) (by simp)) h)
        (fun pv2 h2 => hgood pv2 (by simp [h2]))

theorem lastVal_nil (p : List String) : lastVal [] p = none := rfl

theorem lastVal_isSome_iff (pvs : List (List String × String)) (p : List String) :
    (lastVal pvs p).isSome = true ↔ p ∈ keysOf pvs := by
  induction pvs using List.reverseRecOn with
  | nil => simp [lastVal]
  | append_singleton l qu ih =>
      obtain ⟨q, u⟩ := qu
      rw [lastVal_append]
      by_cases hpq : p = q
      · subst hpq
        simp [keysOf, List.map_append]
      · rw [if_neg hpq]
        rw [ih]
        simp [keysOf, List.map_append, hpq]

theorem mem_keysOf_pathOk {info : String → Option Nat}
    {pvs : List (List String × String)} {p : List String}
    (hmem : p ∈ keysOf pvs) (hgood : ∀ pv ∈ pvs, PathOk info pv.1) :
    PathOk info p := by
  obtain ⟨pv, hpv, rfl⟩ := List.mem_map.mp hmem
  exact hgood pv hpv

theorem leafAt_foldP_lastVal (info : String → Option Nat) :
    ∀ pvs : List (List String × String),
      (∀ pv ∈ pvs, PathOk info pv.1) →
      ∀ (p : List String) (v : String), lastVal pvs p = some v →
        leafAt (foldP pvs []) p = some v := by
  intro pvs
  induction pvs using List.reverseRecOn with
  | nil => intro _ p v hlv; simp [lastVal] at hlv
  | append_singleton l qu ih =>
      intro hgood p v hlv
      obtain ⟨q, u⟩ := qu
      rw [lastVal_append] at hlv
      rw [foldP_append]
      show leafAt (addP q u (foldP l [])) p = some v
      have hq : PathOk info q := hgood (q, u) (by simp)
      by_cases hpq : p = q
      · subst hpq
        rw [if_pos rfl] at hlv
        injection hlv with hv
        subst hv
        exact leafAt_addP_self p u _ (pathOk_nonempty hq)
      · rw [if_neg hpq] at hlv
        have hpk : p ∈ keysOf l := by
          rw [← lastVal_isSome_iff]
          simp [hlv]
        have hp : PathOk info p :=
          mem_keysOf_pathOk hpk (fun pv2 h2 => hgood pv2 (by simp [h2]))
        rw [ leafAt_addP_of_not_prefix q u p _
          ( pathOk_not_prefix hp hq hpq)
          ( pathOk_not_prefix hq hp (Ne.symm hpq))]
        exact ih (fun pv2 h2 => hgood pv2 (by simp [h2])) p v hlv

mutual

/-- The flatten output is the leaf-path list, each path suffixed with its
leaf value (entry version). -/
theorem convertRec_eq_paths (e : Entry) (pre : List String) :
    ConvertChangesDictToFunctionListRec pre e
      = (entryPaths e).map (fun pv => pre ++ pv.1 ++ [pv.2]) := by
  cases e with
  | leaf v => simp [ConvertChangesDictToFunctionListRec, entryPaths]
  | node ch =>
      show ConvertChangesDictItems pre ch = _
      rw [convertItems_eq_paths ch pre]
      rfl

/-- The flatten output is the leaf-path list, each path suffixed with its
leaf value (dict version). -/
theorem convertItems_eq_paths (ch : List (String × Entry)) (pre : List String) :
    ConvertChangesDictItems pre ch
      = (childrenPaths ch).map (fun pv => pre ++ pv.1 ++ [pv.2]) := by
  cases ch with
  | nil => simp [ConvertChangesDictItems, childrenPaths]
  | cons ke rest =>
      obtain ⟨key, e⟩ := ke
      show ConvertChangesDictToFunctionListRec (pre ++ [key]) e ++
          ConvertChangesDictItems pre rest = _
      rw [convertRec_eq_paths e (pre ++ [key]), convertItems_eq_paths rest pre]
      simp [childrenPaths, List.map_map]

end

/-! ### First-occurrence order of every trie level -/

theorem mem_firstOccsAux {α : Type} [DecidableEq α] :
    ∀ (s seen : List α) (a : α),
      a ∈ firstOccsAux seen s ↔ a ∈ s ∧ a ∉ seen := by
  intro s
  induction s with
  | nil => intro seen a; simp [firstOccsAux]
  | cons b s2 ih =>
      intro seen a
      by_cases hb : b ∈ seen
      · rw [show firstOccsAux seen (b :: s2) = firstOccsAux seen s2 from by
          simp [firstOccsAux, hb]]
        rw [ih]
        constructor
        · rintro ⟨h1, h2⟩; exact ⟨by simp [h1], h2⟩
        · rintro ⟨h1, h2⟩
          rcases List.mem_cons.mp h1 with rfl | h3
          · exact absurd hb h2
          · exact ⟨h3, h2⟩
      · rw [show firstOccsAux seen (b :: s2) = b :: firstOccsAux (b :: seen) s2 from by
          simp [firstOccsAux, hb]]
        constructor
        · intro h1
          rcases List.mem_cons.mp h1 with rfl | h3
          · exact ⟨by simp, hb⟩
          · obtain ⟨h4, h5⟩ := (ih (b :: seen) a).mp h3
            refine ⟨by simp [h4], fun h6 => h5 (by simp [h6])⟩
        · rintro ⟨h1, h2⟩
          rcases List.mem_cons.mp h1 with rfl | h3
          · exact List.mem_cons_self _ _
          · by_cases hab : a = b
            · subst hab; exact List.mem_cons_self _ _
            · exact List.mem_cons_of_mem _
                ((ih (b :: seen) a).mpr ⟨h3, by simp [hab, h2]⟩)

theorem mem_firstOccs {α : Type} [DecidableEq α] (s : List α) (a : α) :
    a ∈ firstOccs s ↔ a ∈ s := by
  rw [firstOccs, mem_firstOccsAux]
  simp

theorem firstOccsAux_append_singleton {α : Type} [DecidableEq α] :
    ∀ (s seen : List α) (c : α),
      firstOccsAux seen (s ++ [c]) =
        firstOccsAux seen s ++ (if c ∈ seen ∨ c ∈ s then [] else [c]) := by
  intro s
  induction s with
  | nil =>
      intro seen c
      by_cases hc : c ∈ seen <;> simp [firstOccsAux, hc]
  | cons b s2 ih =>
      intro seen c
      by_cases hb : b ∈ seen
      · rw [List.cons_append]
        rw [show firstOccsAux seen (b :: (s2 ++ [c])) = firstOccsAux seen (s2 ++ [c])
          from by simp [firstOccsAux, hb]]
        rw [show firstOccsAux seen (b :: s2) = firstOccsAux seen s2 from by
          simp [firstOccsAux, hb]]
        rw [ih seen c]
        congr 1
        have : (c ∈ seen ∨ c ∈ s2) ↔ (c ∈ seen ∨ c ∈ b :: s2) := by
          constructor
          · rintro (h | h)
            · exact Or.inl h
            · exact Or.inr (by simp [h])
          · rintro (h | h)
            · exact Or.inl h
            · rcases List.mem_cons.mp h with rfl | h2
              · exact Or.inl hb
              · exact Or.inr h2
        by_cases h1 : c ∈ seen ∨ c ∈ s2
        · rw [if_pos h1, if_pos (this.mp h1)]
        · rw [if_neg h1, if_neg (fun h2 => h1 (this.mpr h2))]
      · rw [List.cons_append]
        rw [show firstOccsAux seen (b :: (s2 ++ [c]))
            = b :: firstOccsAux (b :: seen) (s2 ++ [c]) from by
          simp [firstOccsAux, hb]]
        rw [show firstOccsAux seen (b :: s2) = b :: firstOccsAux (b :: seen) s2 from by
          simp [firstOccsAux, hb]]
        rw [ih (b :: seen) c]
        rw [List.cons_append]
        congr 2
        have : (c ∈ b :: seen ∨ c ∈ s2) ↔ (c ∈ seen ∨ c ∈ b :: s2) := by
          constructor
          · rintro (h | h)
            · rcases List.mem_cons.mp h with rfl | h2
              · exact Or.inr (by simp)
              · exact Or.inl h2
            · exact Or.inr (by simp [h])
          · rintro (h | h)
            · exact Or.inl (by simp [h])
            · rcases List.mem_cons.mp h with rfl | h2
              · exact Or.inl (by simp)
              · exact Or.inr h2
        by_cases h1 : c ∈ b :: seen ∨ c ∈ s2
        · rw [if_pos h1, if_pos (this.mp h1)]
        · rw [if_neg h1, if_neg (fun h2 => h1 (this.mpr h2))]

theorem firstOccs_append_singleton {α : Type} [DecidableEq α] (s : List α) (c : α) :
    firstOccs (s ++ [c]) = if c ∈ s then firstOccs s else firstOccs s ++ [c] := by
  rw [firstOccs, firstOccsAux_append_singleton]
  by_cases hc : c ∈ s
  · simp [firstOccs, hc]
  · simp [firstOccs, hc]

theorem keysAt_nil_dict : ∀ q : List String, keysAt ([] : ChangesDict) q = [] := by
  intro q
  cases q with
  | nil => rfl
  | cons b qs => simp [keysAt, lookupA]

/-- The level order after an insertion, when the inserted path does not
pass strictly through position `q`: unchanged. -/
theorem keysAt_addP_away :
    ∀ (ps : List String) (a v : String) (ch : ChangesDict) (q : List String),
      (∀ e, lookupA ch a = some e → EntryOk ps.length e) →
      childComp q (a :: ps) = none →
      keysAt (addP (a :: ps) v ch) q = keysAt ch q := by
  intro ps
  induction ps with
  | nil =>
      intro a v ch q hlook hcc
      cases q with
      | nil => simp [childComp] at hcc
      | cons b qs =>
          by_cases hba : b = a
          · subst hba
            rw [show addP [b] v ch = upsert ch b (.leaf v) from rfl]
            simp only [keysAt, lookupA_upsert_self]
            cases hl : lookupA ch b with
            | none => rfl
            | some e =>
                cases e with
                | leaf w => rfl
                | node ch2 =>
                    have := hlook _ hl
                    cases this
          · rw [show addP [a] v ch = upsert ch a (.leaf v) from rfl]
            simp only [keysAt, lookupA_upsert_ne _ _ hba]
  | cons a2 ps2 ih =>
      intro a v ch q hlook hcc
      cases q with
      | nil => simp [childComp] at hcc
      | cons b qs =>
          by_cases hba : b = a
          · subst hba
            have hcc2 : childComp qs (a2 :: ps2) = none := by
              simpa [childComp] using hcc
            rw [show addP (b :: a2 :: ps2) v ch
                = upsert ch b (.node (addP (a2 :: ps2) v (childDict ch b))) from rfl]
            simp only [keysAt, lookupA_upsert_self]
            cases hl : lookupA ch b with
            | none =>
                rw [show childDict ch b = [] from by simp [childDict, hl]]
                rw [ih a2 v [] qs (by intro e he; simp [lookupA] at he) hcc2]
                simp [keysAt_nil_dict]
            | some e =>
                cases e with
                | leaf w =>
                    have := hlook _ hl
                    have hlen : (a2 :: ps2).length = ps2.length + 1 := by simp
                    rw [hlen] at this
                    cases this
                | node ch2 =>
                    have hok := hlook _ hl
                    have hlen : (a2 :: ps2).length = ps2.length + 1 := by simp
                    rw [hlen] at hok
                    cases hok with
                    | node _ _ hne2 hnd2 hall2 =>
                        rw [show childDict ch b = ch2 from by simp [childDict, hl]]
                        rw [ih a2 v ch2 qs
                          (fun e2 he2 => by
                            have := hall2 _ (lookupA_eq_some_mem he2)
                            simpa using this) hcc2]
          · have : childComp (b :: qs) (a :: a2 :: ps2) = none := hcc
            rw [show addP (a :: a2 :: ps2) v ch
                = upsert ch a (.node (addP (a2 :: ps2) v (childDict ch a))) from rfl]
            simp only [keysAt, lookupA_upsert_ne _ _ hba]

/-- The level order after an insertion, at a position the inserted path
passes strictly through: the next component is appended iff new. -/
theorem keysAt_addP_along :
    ∀ (ps : List String) (a v : String) (ch : ChangesDict) (q : List String)
      (c : String),
      (∀ e, lookupA ch a = some e → EntryOk ps.length e) →
      childComp q (a :: ps) = some c →
      keysAt (addP (a :: ps) v ch) q =
        (if c ∈ keysAt ch q then keysAt ch q else keysAt ch q ++ [c]) := by
  intro ps
  induction ps with
  | nil =>
      intro a v ch q c hlook hcc
      cases q with
      | nil =>
          have hca : a = c := by
            simpa [childComp] using hcc
          subst hca
          rw [show addP [a] v ch = upsert ch a (.leaf v) from rfl]
          by_cases hmem : a ∈ keysOf ch
          · simp only [keysAt_nil_path]
            rw [keysOf_upsert_of_mem _ _ hmem, if_pos hmem]
          · simp only [keysAt_nil_path]
            rw [keysOf_upsert_of_not_mem _ _ hmem, if_neg hmem]
      | cons b qs =>
          exfalso
          by_cases hba : b = a
          · subst hba
            cases qs with
            | nil => simp [childComp] at hcc
            | cons q2 qs2 => simp [childComp] at hcc
          · simp [childComp, hba] at hcc
  | cons a2 ps2 ih =>
      intro a v ch q c hlook hcc
      cases q with
      | nil =>
          have hca : a = c := by
            simpa [childComp] using hcc
          subst hca
          rw [show addP (a :: a2 :: ps2) v ch
              = upsert ch a (.node (addP (a2 :: ps2) v (childDict ch a))) from rfl]
          by_cases hmem : a ∈ keysOf ch
          · simp only [keysAt_nil_path]
            rw [keysOf_upsert_of_mem _ _ hmem, if_pos hmem]
          · simp only [keysAt_nil_path]
            rw [keysOf_upsert_of_not_mem _ _ hmem, if_neg hmem]
      | cons b qs =>
          by_cases hba : b = a
          · subst hba
            have hcc2 : childComp qs (a2 :: ps2) = some c := by
              simpa [childComp] using hcc
            rw [show addP (b :: a2 :: ps2) v ch
                = upsert ch b (.node (addP (a2 :: ps2) v (childDict ch b))) from rfl]
            simp only [keysAt, lookupA_upsert_self]
            cases hl : lookupA ch b with
            | none =>
                rw [show childDict ch b = [] from by simp [childDict, hl]]
                rw [ih a2 v [] qs c (by intro e he; simp [lookupA] at he) hcc2]
                simp [keysAt_nil_dict]
            | some e =>
                cases e with
                | leaf w =>
                    have := hlook _ hl
                    have hlen : (a2 :: ps2).length = ps2.length + 1 := by simp
                    rw [hlen] at this
                    cases this
                | node ch2 =>
                    have hok := hlook _ hl
                    have hlen : (a2 :: ps2).length = ps2.length + 1 := by simp
                    rw [hlen] at hok
                    cases hok with
                    | node _ _ hne2 hnd2 hall2 =>
                        rw [show childDict ch b = ch2 from by simp [childDict, hl]]
                        rw [ih a2 v ch2 qs c
                          (fun e2 he2 => by
                            have := hall2 _ (lookupA_eq_some_mem he2)
                            simpa using this) hcc2]
          · exfalso
            simp [childComp, hba] at hcc

theorem childSeq_append (q : List String) (l1 l2 : List (List String × String)) :
    childSeq q (l1 ++ l2) = childSeq q l1 ++ childSeq q l2 := by
  simp [childSeq, List.filterMap_append]

theorem childSeq_single (q p : List String) (v : String) :
    childSeq q [(p, v)] = (childComp q p).toList := by
  cases hcc : childComp q p <;> simp [childSeq, hcc]

/-- Every trie level of the fold lists its children in first-insertion
order of the command sequence. -/
theorem keysAt_foldP (info : String → Option Nat) :
    ∀ pvs : List (List String × String),
      (∀ pv ∈ pvs, PathOk info pv.1) →
      ∀ q, keysAt (foldP pvs []) q = firstOccs (childSeq q pvs) := by
  intro pvs
  induction pvs using List.reverseRecOn with
  | nil =>
      intro _ q
      simp [keysAt_nil_dict, childSeq, firstOccs, firstOccsAux, foldP]
  | append_singleton l pv ih =>
      intro hgood q
      obtain ⟨p, v⟩ := pv
      have hgl : ∀ pv2 ∈ l, PathOk info pv2.1 := fun pv2 h2 => hgood pv2 (by simp [h2])
      have hp : PathOk info p := hgood (p, v) (by simp)
      have hD : DictOk info (foldP l []) := dictOk_foldP info l [] (dictOk_nil info) hgl
      rw [foldP_append]
      show keysAt (addP p v (foldP l [])) q = _
      cases p with
      | nil => exact absurd hp (by simp [PathOk])
      | cons name params =>
          have hinfo : info name = some params.length := hp
          have hlook : ∀ e, lookupA (foldP l []) name = some e →
              EntryOk params.length e := by
            intro e he
            obtain ⟨k, hk, hek⟩ := hD.2 _ (lookupA_eq_some_mem he)
            have hkp : k = params.length := by
              rw [hinfo] at hk
              exact (Option.some_inj.mp hk).symm
            rw [← hkp]
            exact hek
          rw [childSeq_append, childSeq_single]
          cases hcc : childComp q (name :: params) with
          | none =>
              rw [keysAt_addP_away params name v _ q hlook hcc, ih hgl q]
              simp
          | some c =>
              rw [keysAt_addP_along params name v _ q c hlook hcc, ih hgl q]
              rw [show (some c).toList = [c] from rfl]
              rw [firstOccs_append_singleton]
              by_cases hcm : c ∈ childSeq q l
              · rw [if_pos ((mem_firstOccs _ _).mpr hcm), if_pos hcm]
              · rw [if_neg (fun h2 => hcm ((mem_firstOccs _ _).mp h2)), if_neg hcm]

theorem cmdsKV_pathOk (info : String → Option Nat) :
    ∀ (cmds : List (List String)) (pvs : List (List String × String)),
      cmdsKV info cmds = some pvs → ∀ pv ∈ pvs, PathOk info pv.1 := by
  intro cmds
  induction cmds with
  | nil =>
      intro pvs h pv hpv
      simp only [cmdsKV, Option.some_inj] at h
      subst h
      cases hpv
  | cons cmd rest ih =>
      intro pvs h pv hpv
      cases hkv : cmdKV info cmd with
      | none => simp [cmdsKV, hkv] at h
      | some pv2 =>
          cases hrest : cmdsKV info rest with
          | none => simp [cmdsKV, hkv, hrest] at h
          | some pvs2 =>
              simp only [cmdsKV, hkv, hrest, Option.some_inj] at h
              subst h
              rcases List.mem_cons.mp hpv with rfl | h2
              · obtain ⟨p, v⟩ := pv
                exact cmdKV_pathOk hkv
              · exact ih pvs2 hrest pv h2

/-! ### The function-info map (`kFunctionInfoMap`, backend_cli.py:71-358) -/

/-- One entry of `kFunctionInfoMap`; `NumParamsForMatch` is `none` for the
functions whose dict omits the key (reading it raises KeyError). -/
structure FunctionInfo where
  NumParamsOptions : List Nat
  HasProfileParam : Bool
  ModifiesFilter : Bool
  NumParamsForMatch : Option Nat
  deriving DecidableEq

/-- `kFunctionInfoMap` (backend_cli.py:71-358), entry for entry. -/
def kFunctionInfoMap : List (String × FunctionInfo) := [
  ("is_first_launch", ⟨[0], false, false, none⟩),
  ("get_all_profile_names", ⟨[0], false, false, none⟩),
  ("create_new_profile", ⟨[1], false, false, none⟩),
  ("rename_profile", ⟨[2], false, false, none⟩),
  ("delete_profile", ⟨[1], false, false, none⟩),
  ("set_active_profile", ⟨[1], false, false, none⟩),
  ("check_filters_exist", ⟨[0], true, false, none⟩),
  ("import_downloaded_filter", ⟨[0], true, false, none⟩),
  ("load_input_filter", ⟨[0], true, false, none⟩),
  ("run_batch", ⟨[0], true, false, none⟩),
  ("get_rule_matching_item", ⟨[0], true, false, none⟩),
  ("set_rule_visibility", ⟨[3], true, true, some 2⟩),
  ("set_currency_to_tier", ⟨[2], true, true, some 1⟩),
  ("get_tier_of_currency", ⟨[1], true, false, none⟩),
  ("get_all_currency_tiers", ⟨[0], true, false, none⟩),
  ("set_currency_tier_min_visible_stack_size", ⟨[2], true, true, some 1⟩),
  ("get_currency_tier_min_visible_stack_size", ⟨[1], true, false, none⟩),
  ("get_all_essence_tier_visibilities", ⟨[0], true, false, none⟩),
  ("set_hide_essences_above_tier", ⟨[1], true, true, some 0⟩),
  ("get_hide_essences_above_tier", ⟨[0], true, false, none⟩),
  ("get_all_div_card_tier_visibilities", ⟨[0], true, false, none⟩),
  ("set_hide_div_cards_above_tier", ⟨[1], true, true, some 0⟩),
  ("get_hide_div_cards_above_tier", ⟨[0], true, false, none⟩),
  ("get_all_unique_item_tier_visibilities", ⟨[0], true, false, none⟩),
  ("set_hide_unique_items_above_tier", ⟨[1], true, true, some 0⟩),
  ("get_hide_unique_items_above_tier", ⟨[0], true, false, none⟩),
  ("get_all_unique_map_tier_visibilities", ⟨[0], true, false, none⟩),
  ("set_hide_unique_maps_above_tier", ⟨[1], true, true, some 0⟩),
  ("get_hide_unique_maps_above_tier", ⟨[0], true, false, none⟩),
  ("set_lowest_visible_oil", ⟨[1], true, true, some 0⟩),
  ("get_lowest_visible_oil", ⟨[0], true, false, none⟩),
  ("set_gem_min_quality", ⟨[1], true, true, some 0⟩),
  ("get_gem_min_quality", ⟨[0], true, false, none⟩),
  ("set_flask_min_quality", ⟨[1], true, true, some 0⟩),
  ("get_flask_min_quality", ⟨[0], true, false, none⟩),
  ("set_hide_maps_below_tier", ⟨[1], true, true, some 0⟩),
  ("get_hide_maps_below_tier", ⟨[0], true, false, none⟩),
  ("set_basetype_visibility", ⟨[2, 3], true, true, some 2⟩),
  ("get_basetype_visibility", ⟨[1], true, false, none⟩),
  ("get_all_visible_basetypes", ⟨[0], true, false, none⟩),
  ("set_flask_visibility", ⟨[2, 3], true, true, some 2⟩),
  ("get_flask_visibility", ⟨[1], true, false, none⟩),
  ("get_all_visible_flasks", ⟨[0], true, false, none⟩),
  ("add_remove_socket_rule", ⟨[2, 3], true, true, some 2⟩),
  ("get_all_added_socket_rules", ⟨[0], true, false, none⟩),
  ("set_rgb_item_max_size", ⟨[1], true, true, some 0⟩),
  ("get_rgb_item_max_size", ⟨[0], true, false, none⟩),
  ("set_chaos_recipe_enabled_for", ⟨[2], true, true, some 1⟩),
  ("is_chaos_recipe_enabled_for", ⟨[1], true, false, none⟩),
  ("get_all_chaos_recipe_statuses", ⟨[0], true, false, none⟩)]

/-- `kFunctionInfoMap[name]['NumParamsForMatch']`: `none` models the
KeyError raised for an unknown name, or for a name whose entry has no
`NumParamsForMatch` key. -/
def numParamsForMatchOf (functionName : String) : Option Nat :=
  match lookupA kFunctionInfoMap functionName with
  | some info => info.NumParamsForMatch
  | none => none

/-- `kFunctionInfoMap[name]['ModifiesFilter']`: `none` models the KeyError
raised for an unknown name. -/
def modifiesFilterOf (functionName : String) : Option Bool :=
  match lookupA kFunctionInfoMap functionName with
  | some info => some info.ModifiesFilter
  | none => none

theorem countP_eq_one_of_nodup_mem {α : Type} [DecidableEq α] :
    ∀ {l : List α} {a : α}, l.Nodup → a ∈ l →
      l.countP (fun x => x = a) = 1 := by
  intro l
  induction l with
  | nil => intro a _ hmem; cases hmem
  | cons b rest ih =>
      intro a hnd hmem
      obtain ⟨hb, hnd2⟩ := List.nodup_cons.mp hnd
      by_cases hba : b = a
      · subst hba
        rw [List.countP_cons_of_pos _ _ (by simp)]
        have : rest.countP (fun x => decide (x = b)) = 0 := by
          refine List.countP_eq_zero.mpr (fun x hx hxb => hb ?_)
          have hxb2 : x = b := by simpa using hxb
          rwa [hxb2] at hx
        omega
      · rw [List.countP_cons_of_neg _ _ (by simpa using hba)]
        rcases List.mem_cons.mp hmem with rfl | h2
        · exact absurd rfl hba
        · exact ih hnd2 h2

theorem countP_eq_zero_of_not_mem {α : Type} [DecidableEq α]
    {l : List α} {a : α} (h : a ∉ l) : l.countP (fun x => x = a) = 0 := by
  refine List.countP_eq_zero.mpr (fun x hx hxa => h ?_)
  have hxa2 : x = a := by simpa using hxa
  rwa [hxa2] at hx

/-! ### `shlex.split` (Python stdlib, POSIX mode, whitespace_split)

`UpdateProfileChangesFile` and the import/run_batch branches tokenize with
`shlex.split(s)`, i.e. a `shlex` lexer with `posix=True`,
`whitespace_split=True` and comments disabled.  We transcribe CPython's
`shlex.read_token` state machine for that configuration: states are
start/whitespace (`' '`), in-word (`'a'`), inside a single or double
quote, and the two escape states (escaped from word context and escaped
inside double quotes — a backslash inside single quotes is literal since
`escapedquotes = '"'`).  `ValueError` ("No closing quotation" / "No
escaped character") is `none`. -/

/-- The double-quote character. -/
def kDquoteChar : Char := Char.ofNat 34

/-- The single-quote character. -/
def kSquoteChar : Char := Char.ofNat 39

/-- The backslash escape character. -/
def kEscapeChar : Char := Char.ofNat 92

/-- `shlex.whitespace = ' \t\r\n'`. -/
def isShlexWs (c : Char) : Bool :=
  c = ' ' || c = Char.ofNat 9 || c = Char.ofNat 13 || c = Char.ofNat 10

/-- Lexer states of `shlex.read_token`. -/
inductive ShlexState where
  | ws | word | squote | dquote | escWord | escDquote

/-- One pass of `shlex` over the remaining input, carrying the current
token and the per-token `quoted` flag; returns the token list or `none`
for `ValueError`. -/
def shlexRun : List Char → ShlexState → List Char → Bool → Option (List String)
  | [], .ws, tok, quoted =>
      some (if tok ≠ [] ∨ quoted then [String.mk tok] else [])
  | [], .word, tok, quoted =>
      some (if tok ≠ [] ∨ quoted then [String.mk tok] else [])
  | [], .squote, _, _ => none
  | [], .dquote, _, _ => none
  | [], .escWord, _, _ => none
  | [], .escDquote, _, _ => none
  | c :: cs, .ws, tok, quoted =>
      if isShlexWs c then
        if tok ≠ [] ∨ quoted then
          (shlexRun cs .ws [] false).map (fun ts => String.mk tok :: ts)
        else shlexRun cs .ws [] false
      else if c = kEscapeChar then shlexRun cs .escWord tok quoted
      else if c = kSquoteChar then shlexRun cs .squote tok quoted
      else if c = kDquoteChar then shlexRun cs .dquote tok quoted
      else shlexRun cs .word (tok ++ [c]) quoted
  | c :: cs, .word, tok, quoted =>
      if isShlexWs c then
        if tok ≠ [] ∨ quoted then
          (shlexRun cs .ws [] false).map (fun ts => String.mk tok :: ts)
        else shlexRun cs .ws [] false
      else if c = kSquoteChar then shlexRun cs .squote tok quoted
      else if c = kDquoteChar then shlexRun cs .dquote tok quoted
      else if c = kEscapeChar then shlexRun cs .escWord tok quoted
      else shlexRun cs .word (tok ++ [c]) quoted
  | c :: cs, .squote, tok, _ =>
      if c = kSquoteChar then shlexRun cs .word tok true
      else shlexRun cs .squote (tok ++ [c]) true
  | c :: cs, .dquote, tok, _ =>
      if c = kDquoteChar then shlexRun cs .word tok true
      else if c = kEscapeChar then shlexRun cs .escDquote tok true
      else shlexRun cs .dquote (tok ++ [c]) true
  | c :: cs, .escWord, tok, quoted => shlexRun cs .word (tok ++ [c]) quoted
  | c :: cs, .escDquote, tok, quoted =>
      if c ≠ kEscapeChar ∧ c ≠ kDquoteChar then
        shlexRun cs .dquote (tok ++ [kEscapeChar, c]) quoted
      else shlexRun cs .dquote (tok ++ [c]) quoted

/-- `shlex.split(s)` as called by backend_cli.py. -/
def shlexSplit (s : String) : Option (List String) :=
  shlexRun s.data .ws [] false

/-- `QuoteStringIfRequired` (backend_cli.py:381-386): encloses the string
in double quotes if it contains a space or single quote (Python's
single-character substring test `" " in s` is character membership);
does not check for double quotes in the string. -/
def QuoteStringIfRequired (inputString : String) : String :=
  if ' ' ∈ inputString.data ∨ kSquoteChar ∈ inputString.data then
    String.mk [kDquoteChar] ++ inputString ++ String.mk [kDquoteChar]
  else inputString

/-- `JoinParams` (backend_cli.py:390-393): `' '.join` of the quoted
parameters. -/
def JoinParams : List String → String
  | [] => ""
  | [param] => QuoteStringIfRequired param
  | param :: rest => QuoteStringIfRequired param ++ " " ++ JoinParams rest

/-- `ConvertChangesDictToFunctionList` (backend_cli.py:445-453). -/
def ConvertChangesDictToFunctionList (changesDict : ChangesDict) : List String :=
  (ConvertChangesDictToFunctionListRec [] (.node changesDict)).map JoinParams

/-- A token that the quoting scheme can round-trip: nonempty, and free of
double quotes, backslashes, and whitespace other than the space. -/
def cleanToken (s : String) : Prop :=
  s.data ≠ [] ∧ ∀ c ∈ s.data,
    c ≠ kDquoteChar ∧ c ≠ kEscapeChar ∧
    c ≠ Char.ofNat 9 ∧ c ≠ Char.ofNat 13 ∧ c ≠ Char.ofNat 10

instance (s : String) : Decidable (cleanToken s) := by
  unfold cleanToken
  infer_instance

theorem stringMk_data (s : String) : String.mk s.data = s := by
  cases s
  rfl

/-- A character that neither terminates nor escapes a token. -/
def plainChar (c : Char) : Prop :=
  isShlexWs c = false ∧ c ≠ kSquoteChar ∧ c ≠ kDquoteChar ∧ c ≠ kEscapeChar

theorem shlexRun_dquote_quoted_irrel (cs : List Char) (tok : List Char) (q q2 : Bool) :
    shlexRun cs .dquote tok q = shlexRun cs .dquote tok q2 := by
  cases cs with
  | nil => rfl
  | cons c cs2 => simp [shlexRun]

theorem shlexRun_dquote_consume :
    ∀ (cs : List Char), (∀ c ∈ cs, c ≠ kDquoteChar ∧ c ≠ kEscapeChar) →
      ∀ (rest tok : List Char) (q : Bool),
        shlexRun (cs ++ rest) .dquote tok q = shlexRun rest .dquote (tok ++ cs) q := by
  intro cs
  induction cs with
  | nil => intro _ rest tok q; simp
  | cons c cs2 ih =>
      intro h rest tok q
      have hc := h c (by simp)
      rw [List.cons_append]
      rw [show shlexRun (c :: (cs2 ++ rest)) .dquote tok q
          = shlexRun (cs2 ++ rest) .dquote (tok ++ [c]) true from by
        simp [shlexRun, hc.1, hc.2]]
      rw [shlexRun_dquote_quoted_irrel _ _ true q]
      rw [ih (fun c2 h2 => h c2 (by simp [h2])) rest (tok ++ [c]) q]
      simp

theorem shlexRun_word_consume :
    ∀ (cs : List Char), (∀ c ∈ cs, plainChar c) →
      ∀ (rest tok : List Char) (q : Bool),
        shlexRun (cs ++ rest) .word tok q = shlexRun rest .word (tok ++ cs) q := by
  intro cs
  induction cs with
  | nil => intro _ rest tok q; simp
  | cons c cs2 ih =>
      intro h rest tok q
      have hc := h c (by simp)
      rw [List.cons_append]
      rw [show shlexRun (c :: (cs2 ++ rest)) .word tok q
          = shlexRun (cs2 ++ rest) .word (tok ++ [c]) q from by
        simp [shlexRun, hc.1, hc.2.1, hc.2.2.1, hc.2.2.2]]
      rw [ih (fun c2 h2 => h c2 (by simp [h2])) rest (tok ++ [c]) q]
      simp

theorem shlexRun_consume_quoted_token (t : String) (h : cleanToken t)
    (rest : List Char) :
    ∃ q : Bool, shlexRun ((QuoteStringIfRequired t).data ++ rest) .ws [] false
        = shlexRun rest .word t.data q ∧ (t.data ≠ [] ∨ q = true) := by
  obtain ⟨hne, hclean⟩ := h
  by_cases hq : ' ' ∈ t.data ∨ kSquoteChar ∈ t.data
  · refine ⟨true, ?_, Or.inr rfl⟩
    rw [show QuoteStringIfRequired t
        = String.mk [kDquoteChar] ++ t ++ String.mk [kDquoteChar] from by
      simp [QuoteStringIfRequired, hq]]
    rw [String.data_append, String.data_append]
    rw [show (String.mk [kDquoteChar]).data = [kDquoteChar] from rfl]
    rw [show ([kDquoteChar] ++ t.data ++ [kDquoteChar]) ++ rest
        = kDquoteChar :: (t.data ++ (kDquoteChar :: rest)) from by simp]
    rw [show shlexRun (kDquoteChar :: (t.data ++ (kDquoteChar :: rest))) .ws [] false
        = shlexRun (t.data ++ (kDquoteChar :: rest)) .dquote [] false from by
      simp [shlexRun, isShlexWs, kDquoteChar, kEscapeChar, kSquoteChar]]
    rw [shlexRun_dquote_consume t.data
      (fun c hc => ⟨(hclean c hc).1, (hclean c hc).2.1⟩) _ [] false]
    simp [shlexRun]
  · push_neg at hq
    refine ⟨false, ?_, Or.inl hne⟩
    rw [show QuoteStringIfRequired t = t from by
      simp [QuoteStringIfRequired, hq.1, hq.2]]
    have hplain : ∀ c ∈ t.data, plainChar c := by
      intro c hc
      obtain ⟨h1, h2, h3, h4, h5⟩ := hclean c hc
      refine ⟨?_, fun he => hq.2 (he ▸ hc), h1, h2⟩
      simp only [isShlexWs]
      have hsp : c ≠ ' ' := fun he => hq.1 (he ▸ hc)
      simp [hsp, h3, h4, h5]
    cases hd : t.data with
    | nil => exact absurd hd hne
    | cons c cs =>
        rw [hd] at hplain
        rw [List.cons_append]
        have hc := hplain c (by simp)
        rw [show shlexRun (c :: (cs ++ rest)) .ws [] false
            = shlexRun (cs ++ rest) .word [c] false from by
          simp [shlexRun, hc.1, hc.2.1, hc.2.2.1, hc.2.2.2]]
        rw [shlexRun_word_consume cs
          (fun c2 h2 => hplain c2 (by simp [h2])) rest [c] false]
        rfl

theorem shlexSplit_joinParams :
    ∀ ts : List String, ts ≠ [] → (∀ t ∈ ts, cleanToken t) →
      shlexSplit (JoinParams ts) = some ts := by
  intro ts
  induction ts with
  | nil => intro h _; exact absurd rfl h
  | cons t ts2 ih =>
      intro _ hclean
      have hct := hclean t (by simp)
      cases ts2 with
      | nil =>
          show shlexRun (JoinParams [t]).data .ws [] false = some [t]
          obtain ⟨q, hrun, hcond⟩ := shlexRun_consume_quoted_token t hct []
          rw [List.append_nil] at hrun
          rw [show JoinParams [t] = QuoteStringIfRequired t from rfl, hrun]
          rcases hcond with h1 | h1
          · simp [shlexRun, h1, stringMk_data]
          · subst h1
            simp [shlexRun, stringMk_data]
      | cons t2 ts3 =>
          show shlexRun (JoinParams (t :: t2 :: ts3)).data .ws [] false
              = some (t :: t2 :: ts3)
          rw [show JoinParams (t :: t2 :: ts3)
              = QuoteStringIfRequired t ++ " " ++ JoinParams (t2 :: ts3) from rfl]
          rw [String.data_append, String.data_append]
          rw [show (" " : String).data = [' '] from rfl]
          rw [show ((QuoteStringIfRequired t).data ++ [' ']
                ++ (JoinParams (t2 :: ts3)).data)
              = (QuoteStringIfRequired t).data
                ++ (' ' :: (JoinParams (t2 :: ts3)).data) from by simp]
          obtain ⟨q, hrun, hcond⟩ := shlexRun_consume_quoted_token t hct
            (' ' :: (JoinParams (t2 :: ts3)).data)
          rw [hrun]
          have hih := ih (by simp) (fun t3 h3 => hclean t3 (by simp [h3]))
          rw [show shlexRun (' ' :: (JoinParams (t2 :: ts3)).data) .word t.data q
              = (shlexRun (JoinParams (t2 :: ts3)).data .ws [] false).map
                  (fun ts4 => String.mk t.data :: ts4) from by
            have hws : isShlexWs ' ' = true := by simp [isShlexWs]
            rcases hcond with h1 | h1
            · simp [shlexRun, hws, h1]
            · subst h1
              simp [shlexRun, hws]]
          rw [show shlexRun (JoinParams (t2 :: ts3)).data .ws [] false
              = some (t2 :: ts3) from hih]
          simp [stringMk_data]

/-- Claim C3 (counterexample): the round-trip
`shlex.split(QuoteStringIfRequired(s)) == [s]` fails for double-quote-free
strings: the empty string tokenizes to no token at all, a tab splits an
unquoted string in two, and an unquoted backslash is consumed as an escape
character. -/
theorem C3_quoting_roundtrip_counterexample :
    ((∀ c ∈ ("" : String).data, c ≠ kDquoteChar) ∧
      shlexSplit (QuoteStringIfRequired ("")) = some [] ∧
      some [] ≠ some [("" : String)]) ∧
    ((∀ c ∈ ("a\tb" : String).data, c ≠ kDquoteChar) ∧
      shlexSplit (QuoteStringIfRequired ("a\tb")) = some ["a", "b"] ∧
      some ["a", "b"] ≠ some [("a\tb" : String)]) ∧
    ((∀ c ∈ (String.mk ['a', kEscapeChar, 'b']).data, c ≠ kDquoteChar) ∧
      shlexSplit (QuoteStringIfRequired (String.mk ['a', kEscapeChar, 'b']))
        = some ["ab"] ∧
      some ["ab"] ≠ some [String.mk ['a', kEscapeChar, 'b']]) := by
  refine ⟨⟨by decide, by rfl, by decide⟩, ⟨by decide, by rfl, by decide⟩,
    by decide, by rfl, by decide⟩

/-- Claim C3 (amended): for every nonempty string containing no double
quote, no backslash, and no whitespace other than spaces,
`shlex.split(QuoteStringIfRequired(s)) = [s]`. -/
theorem C3_quoting_roundtrip (s : String) (h : cleanToken s) :
    shlexSplit (QuoteStringIfRequired s) = some [s] := by
  have := shlexSplit_joinParams [s] (by simp) (by simpa using h)
  rwa [show JoinParams [s] = QuoteStringIfRequired s from rfl] at this

/-- Witness for the amended C3 on a representative string containing a
space (so it gets quoted). -/
theorem C3_quoting_roundtrip_witness :
    cleanToken ("Chromatic Orb") ∧
      shlexSplit (QuoteStringIfRequired ("Chromatic Orb"))
        = some ["Chromatic Orb"] :=
  ⟨by decide, C3_quoting_roundtrip ("Chromatic Orb") (by decide)⟩

/-! ### `UpdateProfileChangesFile` (backend_cli.py:455-498) -/

/-- Python substring test `pat in s` on strings. -/
def pySubstr (pat s : String) : Bool :=
  s.data.tails.any (fun t => pat.data.isPrefixOf t)

/-- The ASCII whitespace stripped by Python `str.strip()`. -/
def isPyStripWs (c : Char) : Bool :=
  c = ' ' || c = Char.ofNat 9 || c = Char.ofNat 10 || c = Char.ofNat 13 ||
    c = Char.ofNat 11 || c = Char.ofNat 12

/-- Python `str.strip()` (restricted to ASCII whitespace): drop leading
and trailing whitespace characters. -/
def pyStrip (s : String) : String :=
  String.mk (((s.data.dropWhile isPyStripWs).reverse.dropWhile isPyStripWs).reverse)

/-- The parse loop of `UpdateProfileChangesFile` (backend_cli.py:467-470):
each line is stripped, tokenized with `shlex.split`, and folded into the
dict; any exception aborts the whole call. -/
def parseChangesLines : List String → ChangesDict → Option ChangesDict
  | [], d => some d
  | line :: rest, d =>
      match shlexSplit (pyStrip line) with
      | none => none
      | some tokensList =>
          match AddFunctionToChangesDict numParamsForMatchOf tokensList d with
          | none => none
          | some d2 => parseChangesLines rest d2

/-- The match-probing loop of `UpdateProfileChangesFile`
(backend_cli.py:475-488).  Its only observable effects are exceptions:
IndexError when `new_function_params` is shorter than the match arity and
the probed keys keep matching, and TypeError when the probe descends into
a leaf string that contains the next parameter as a substring (`in` on a
Python str is a substring test).  A failed membership test just breaks. -/
def matchProbeLoop : Nat → List String → Entry → Option Unit
  | 0, _, _ => some ()
  | k + 1, params, current =>
      match params with
      | [] => none
      | p :: rest =>
          match current with
          | .node cd =>
              match lookupA cd p with
              | none => some ()
              | some e => matchProbeLoop k rest e
          | .leaf s => if pySubstr p s then none else some ()

/-- The match-check block of `UpdateProfileChangesFile`
(backend_cli.py:472-488), starting with the
`kFunctionInfoMap[new_function_name]['NumParamsForMatch']` lookup. -/
def updateMatchCheck (parsedChangesDict : ChangesDict) (newFunctionName : String)
    (newFunctionParams : List String) : Option Unit :=
  match numParamsForMatchOf newFunctionName with
  | none => none
  | some numParamsForMatch =>
      match lookupA parsedChangesDict newFunctionName with
      | none => some ()
      | some e => matchProbeLoop numParamsForMatch newFunctionParams e

/-- `UpdateProfileChangesFile` (backend_cli.py:455-498) as a function from
the current changes-file lines to the new ones; `none` means an exception
is raised before the write, leaving the file untouched. -/
def UpdateProfileChangesFile (changesLines : List String) (newFunctionName : String)
    (newFunctionParams : List String) : Option (List String) :=
  match parseChangesLines changesLines [] with
  | none => none
  | some parsedChangesDict =>
      match updateMatchCheck parsedChangesDict newFunctionName newFunctionParams with
      | none => none
      | some _ =>
          match AddFunctionToChangesDict numParamsForMatchOf
              (newFunctionName :: newFunctionParams) parsedChangesDict with
          | none => none
          | some d2 => some (ConvertChangesDictToFunctionList d2)

/-- A change-log line whose processing raises: tokenizer failure, or a
token list with no command name, an unknown command name, or fewer tokens
than the match arity requires. -/
def badChangesLine (line : String) : Bool :=
  match shlexSplit (pyStrip line) with
  | none => true
  | some ts => (cmdKV numParamsForMatchOf ts).isNone

theorem addFunction_none_of_cmdKV_none {info : String → Option Nat}
    {ts : List String} (h : cmdKV info ts = none) (d : ChangesDict) :
    AddFunctionToChangesDict info ts d = none := by
  rw [addFunction_eq_kv, h]

/-- Claim C6: if any line of the existing change-log file fails to
tokenize, names a command absent from `kFunctionInfoMap`, or has fewer
tokens than its match arity requires, `UpdateProfileChangesFile` raises
before reaching the write step, so the file is left unchanged (no line is
silently discarded). -/
theorem C6_changes_file_fail_fast (changesLines : List String)
    (newFunctionName : String) (newFunctionParams : List String)
    (h : ∃ line ∈ changesLines, badChangesLine line = true) :
    UpdateProfileChangesFile changesLines newFunctionName newFunctionParams
      = none := by
  suffices hs : ∀ d, parseChangesLines changesLines d = none by
    rw [UpdateProfileChangesFile, hs []]
  obtain ⟨line, hmem, hbad⟩ := h
  induction changesLines with
  | nil => cases hmem
  | cons l rest ih =>
      intro d
      rcases List.mem_cons.mp hmem with rfl | hmem2
      · rw [parseChangesLines]
        unfold badChangesLine at hbad
        cases hsplit : shlexSplit (pyStrip line) with
        | none => rfl
        | some ts =>
            rw [hsplit] at hbad
            simp only [Option.isNone_iff_eq_none] at hbad
            simp [addFunction_none_of_cmdKV_none hbad d]
      · rw [parseChangesLines]
        cases hsplit : shlexSplit (pyStrip l) with
        | none => rfl
        | some ts =>
            cases hadd : AddFunctionToChangesDict numParamsForMatchOf ts d with
            | none => simp [hadd]
            | some d2 => simp [hadd, ih hmem2 d2]

/-- Witness for C6: a changes file holding a truncated
`set_currency_to_tier` line (missing the tier token). -/
theorem C6_changes_file_fail_fast_witness :
    (∃ line ∈ [("set_currency_to_tier \"Chromatic Orb\"" : String)],
      badChangesLine line = true) ∧
    UpdateProfileChangesFile ["set_currency_to_tier \"Chromatic Orb\""]
        ("set_hide_maps_below_tier") ["14"] = none :=
  ⟨⟨"set_currency_to_tier \"Chromatic Orb\"", by simp, by decide⟩,
    C6_changes_file_fail_fast _ _ _
      ⟨"set_currency_to_tier \"Chromatic Orb\"", by simp, by decide⟩⟩

/-- Claim C1: folding any well-formed command sequence into the change-log
trie (`AddFunctionToChangesDict`) never raises, and flattening it with
`ConvertChangesDictToFunctionListRec` produces exactly one output line per
distinct key (command name plus its first `NumParamsForMatch` parameters);
the line for a key merged with trailing values `v1..vN` carries `vN`, and
the whole trie — hence the position of every line — equals the trie of the
compacted sequence in which each key sits at its first-insertion position;
the flatten itself is the depth-first traversal `ConvertChangesDictItems`,
visiting each level's children in the dict's (first-insertion) order. -/
theorem C1_compaction_flatten (info : String → Option Nat)
    (cmds : List (List String)) (pvs : List (List String × String))
    (h : cmdsKV info cmds = some pvs) :
    foldChanges info cmds [] = some (foldP pvs []) ∧
    foldP pvs [] = foldP (compactPairs pvs) [] ∧
    (((ConvertChangesDictToFunctionListRec [] (.node (foldP pvs []))).map
        List.dropLast).Nodup ∧
      ∀ (p : List String) (v : String), lastVal pvs p = some v →
        (p ++ [v]) ∈ ConvertChangesDictToFunctionListRec [] (.node (foldP pvs [])) ∧
        ((ConvertChangesDictToFunctionListRec [] (.node (foldP pvs []))).map
            List.dropLast).countP (fun q => q = p) = 1) ∧
    (∀ p : List String, lastVal pvs p = none →
      ((ConvertChangesDictToFunctionListRec [] (.node (foldP pvs []))).map
          List.dropLast).countP (fun q => q = p) = 0) := by
  have hgood := cmdsKV_pathOk info cmds pvs h
  have hD : DictOk info (foldP pvs []) :=
    dictOk_foldP info pvs [] (dictOk_nil info) hgood
  have hflat : ConvertChangesDictToFunctionListRec [] (.node (foldP pvs []))
      = (childrenPaths (foldP pvs [])).map (fun pv => pv.1 ++ [pv.2]) := by
    rw [convertRec_eq_paths]
    show (childrenPaths (foldP pvs [])).map _ = _
    simp
  have hkeys : (ConvertChangesDictToFunctionListRec [] (.node (foldP pvs []))).map
      List.dropLast = (childrenPaths (foldP pvs [])).map Prod.fst := by
    rw [hflat, List.map_map]
    refine List.map_congr_left (fun pv _ => ?_)
    simp
  refine ⟨foldChanges_eq_foldP info cmds pvs [] h (dictOk_nil info),
    foldP_eq_foldP_compact info pvs hgood, ⟨?_, ?_⟩, ?_⟩
  · rw [hkeys]
    exact dictOk_paths_nodup hD
  · intro p v hlv
    have hleaf : leafAt (foldP pvs []) p = some v :=
      leafAt_foldP_lastVal info pvs hgood p v hlv
    have hmem : ((p, v) : List String × String) ∈ childrenPaths (foldP pvs []) :=
      leafAt_some_mem_paths p _ v hleaf
    constructor
    · rw [hflat]
      exact List.mem_map.mpr ⟨(p, v), hmem, rfl⟩
    · rw [hkeys]
      exact countP_eq_one_of_nodup_mem (dictOk_paths_nodup hD)
        (List.mem_map.mpr ⟨(p, v), hmem, rfl⟩)
  · intro p hlv
    rw [hkeys]
    refine countP_eq_zero_of_not_mem (fun hmem => ?_)
    obtain ⟨pv, hpv, hfst⟩ := List.mem_map.mp hmem
    rcases childrenPaths_foldP_subset pvs [] pv hpv with h2 | h2
    · cases h2
    · rw [hfst] at h2
      have h3 : (lastVal pvs p).isSome = true := (lastVal_isSome_iff _ _).mpr h2
      rw [hlv] at h3
      cases h3

/-- Witness for C1, on spec Scenario B: `set_hide_maps_below_tier 10` then
`set_hide_maps_below_tier 14`. -/
theorem C1_compaction_flatten_witness :
    cmdsKV numParamsForMatchOf
        [["set_hide_maps_below_tier", "10"], ["set_hide_maps_below_tier", "14"]]
      = some [(["set_hide_maps_below_tier"], "10"),
              (["set_hide_maps_below_tier"], "14")] ∧
    (foldChanges numParamsForMatchOf
        [["set_hide_maps_below_tier", "10"], ["set_hide_maps_below_tier", "14"]] []
      = some (foldP [(["set_hide_maps_below_tier"], "10"),
                     (["set_hide_maps_below_tier"], "14")] []) ∧
      foldP [(["set_hide_maps_below_tier"], "10"),
             (["set_hide_maps_below_tier"], "14")] []
        = foldP (compactPairs [(["set_hide_maps_below_tier"], "10"),
                               (["set_hide_maps_below_tier"], "14")]) [] ∧
      (((ConvertChangesDictToFunctionListRec []
            (.node (foldP [(["set_hide_maps_below_tier"], "10"),
                           (["set_hide_maps_below_tier"], "14")] []))).map
          List.dropLast).Nodup ∧
        ∀ (p : List String) (v : String),
          lastVal [(["set_hide_maps_below_tier"], "10"),
                   (["set_hide_maps_below_tier"], "14")] p = some v →
          (p ++ [v]) ∈ ConvertChangesDictToFunctionListRec []
              (.node (foldP [(["set_hide_maps_below_tier"], "10"),
                             (["set_hide_maps_below_tier"], "14")] [])) ∧
          ((ConvertChangesDictToFunctionListRec []
              (.node (foldP [(["set_hide_maps_below_tier"], "10"),
                             (["set_hide_maps_below_tier"], "14")] []))).map
              List.dropLast).countP (fun q => q = p) = 1) ∧
      (∀ p : List String,
        lastVal [(["set_hide_maps_below_tier"], "10"),
                 (["set_hide_maps_below_tier"], "14")] p = none →
        ((ConvertChangesDictToFunctionListRec []
            (.node (foldP [(["set_hide_maps_below_tier"], "10"),
                           (["set_hide_maps_below_tier"], "14")] []))).map
            List.dropLast).countP (fun q => q = p) = 0)) :=
  ⟨by rfl, C1_compaction_flatten numParamsForMatchOf _ _ (by rfl)⟩

/-- Claim C2: every trie reachable by folding a well-formed command
sequence satisfies the three invariants: exactly one leaf per inserted
(name, match-key) pair, holding that pair's last value; every level's
iteration order is the first-insertion order of that level's children; and
re-adding an already-present key overwrites its leaf without changing any
level's key order or any other leaf. -/
theorem C2_trie_invariants (info : String → Option Nat)
    (cmds : List (List String)) (pvs : List (List String × String))
    (d : ChangesDict) (h1 : cmdsKV info cmds = some pvs)
    (h2 : foldChanges info cmds [] = some d) :
    (∀ (p : List String) (v : String), lastVal pvs p = some v →
      ((childrenPaths d).map Prod.fst).countP (fun q => q = p) = 1 ∧
        leafAt d p = some v) ∧
    (∀ q, keysAt d q = firstOccs (childSeq q pvs)) ∧
    (∀ (cmd p : List String) (v : String) (d' : ChangesDict),
      cmdKV info cmd = some (p, v) → (leafAt d p).isSome →
      AddFunctionToChangesDict info cmd d = some d' →
      (∀ q, keysAt d' q = keysAt d q) ∧ leafAt d' p = some v ∧
        ∀ p2, p2 ≠ p → leafAt d' p2 = leafAt d p2) := by
  have hgood := cmdsKV_pathOk info cmds pvs h1
  have hfold := foldChanges_eq_foldP info cmds pvs [] h1 (dictOk_nil info)
  rw [h2] at hfold
  have hd : d = foldP pvs [] := Option.some_inj.mp hfold
  subst hd
  have hD : DictOk info (foldP pvs []) :=
    dictOk_foldP info pvs [] (dictOk_nil info) hgood
  refine ⟨?_, keysAt_foldP info pvs hgood, ?_⟩
  · intro p v hlv
    have hleaf : leafAt (foldP pvs []) p = some v :=
      leafAt_foldP_lastVal info pvs hgood p v hlv
    refine ⟨?_, hleaf⟩
    exact countP_eq_one_of_nodup_mem (dictOk_paths_nodup hD)
      (List.mem_map.mpr ⟨(p, v), leafAt_some_mem_paths p _ v hleaf, rfl⟩)
  · intro cmd p v d' hkv hpres hadd
    have hpath := cmdKV_pathOk hkv
    have hstep : AddFunctionToChangesDict info cmd (foldP pvs [])
        = some (addP p v (foldP pvs [])) := by
      rw [addFunction_eq_kv, hkv]
      exact addPath_eq_addP_dict info p v _ hpath hD
    rw [hstep] at hadd
    have hd2 : d' = addP p v (foldP pvs []) := (Option.some_inj.mp hadd).symm
    subst hd2
    exact ⟨keysAt_addP_present p v _ hpres,
      leafAt_addP_self p v _ (pathOk_nonempty hpath),
      fun p2 hp2 => leafAt_addP_present_other p v _ hpres p2 hp2⟩

/-- Witness for C2: the currency-move key ("Chromatic Orb") merged twice,
then overwritten a third time through `AddFunctionToChangesDict`. -/
theorem C2_trie_invariants_witness :
    cmdsKV numParamsForMatchOf
        [["set_currency_to_tier", "Chromatic Orb", "5"],
         ["set_hide_maps_below_tier", "14"],
         ["set_currency_to_tier", "Chromatic Orb", "3"]]
      = some [(["set_currency_to_tier", "Chromatic Orb"], "5"),
              (["set_hide_maps_below_tier"], "14"),
              (["set_currency_to_tier", "Chromatic Orb"], "3")] ∧
    foldChanges numParamsForMatchOf
        [["set_currency_to_tier", "Chromatic Orb", "5"],
         ["set_hide_maps_below_tier", "14"],
         ["set_currency_to_tier", "Chromatic Orb", "3"]] []
      = some [("set_currency_to_tier",
               .node [("Chromatic Orb", .leaf "3")]),
              ("set_hide_maps_below_tier", .leaf "14")] ∧
    ((∀ (p : List String) (v : String),
      lastVal [(["set_currency_to_tier", "Chromatic Orb"], "5"),
               (["set_hide_maps_below_tier"], "14"),
               (["set_currency_to_tier", "Chromatic Orb"], "3")] p = some v →
      ((childrenPaths [("set_currency_to_tier",
          .node [("Chromatic Orb", .leaf "3")]),
          ("set_hide_maps_below_tier", .leaf "14")]).map
          Prod.fst).countP (fun q => q = p) = 1 ∧
      leafAt [("set_currency_to_tier", .node [("Chromatic Orb", .leaf "3")]),
              ("set_hide_maps_below_tier", .leaf "14")] p = some v) ∧
    (∀ q, keysAt [("set_currency_to_tier", .node [("Chromatic Orb", .leaf "3")]),
                  ("set_hide_maps_below_tier", .leaf "14")] q
      = firstOccs (childSeq q
          [(["set_currency_to_tier", "Chromatic Orb"], "5"),
           (["set_hide_maps_below_tier"], "14"),
           (["set_currency_to_tier", "Chromatic Orb"], "3")])) ∧
    (∀ (cmd p : List String) (v : String) (d' : ChangesDict),
      cmdKV numParamsForMatchOf cmd = some (p, v) →
      (leafAt [("set_currency_to_tier", .node [("Chromatic Orb", .leaf "3")]),
               ("set_hide_maps_below_tier", .leaf "14")] p).isSome →
      AddFunctionToChangesDict numParamsForMatchOf cmd
          [("set_currency_to_tier", .node [("Chromatic Orb", .leaf "3")]),
           ("set_hide_maps_below_tier", .leaf "14")] = some d' →
      (∀ q, keysAt d' q
          = keysAt [("set_currency_to_tier", .node [("Chromatic Orb", .leaf "3")]),
                    ("set_hide_maps_below_tier", .leaf "14")] q) ∧
        leafAt d' p = some v ∧
        ∀ p2, p2 ≠ p → leafAt d' p2
          = leafAt [("set_currency_to_tier", .node [("Chromatic Orb", .leaf "3")]),
                    ("set_hide_maps_below_tier", .leaf "14")] p2)) :=
  ⟨by rfl, by rfl,
    C2_trie_invariants numParamsForMatchOf
      [["set_currency_to_tier", "Chromatic Orb", "5"],
       ["set_hide_maps_below_tier", "14"],
       ["set_currency_to_tier", "Chromatic Orb", "3"]]
      [(["set_currency_to_tier", "Chromatic Orb"], "5"),
       (["set_hide_maps_below_tier"], "14"),
       (["set_currency_to_tier", "Chromatic Orb"], "3")]
      [("set_currency_to_tier", .node [("Chromatic Orb", .leaf "3")]),
       ("set_hide_maps_below_tier", .leaf "14")]
      (by rfl) (by rfl)⟩

/-! ### Claim C4: replay order of the persisted change script -/

/-- The replay loop of `import_downloaded_filter` / `load_input_filter`
(backend_cli.py:553-557): each change line, in file order, is tokenized
with `shlex.split` and unpacked as `name, *params`; an empty token list
fails the unpacking (`ValueError`), a tokenizer failure propagates. -/
def importReplaySeq : List String → Option (List (String × List String))
  | [] => some []
  | line :: rest =>
      match shlexSplit line with
      | none => none
      | some [] => none
      | some (name :: params) =>
          match importReplaySeq rest with
          | none => none
          | some seq => some ((name, params) :: seq)

/-- In a list whose first components are distinct, a member is determined
by its first component. -/
theorem eq_of_mem_nodup_fst {α β : Type} {l : List (α × β)}
    (hnd : (l.map Prod.fst).Nodup) :
    ∀ x ∈ l, ∀ y ∈ l, x.1 = y.1 → x = y := by
  induction l with
  | nil => intro x hx; cases hx
  | cons a rest ih =>
      intro x hx y hy hfst
      simp only [List.map_cons, List.nodup_cons] at hnd
      rcases List.mem_cons.mp hx with rfl | hx2
      · rcases List.mem_cons.mp hy with rfl | hy2
        · rfl
        · exact absurd (by rw [hfst]; exact List.mem_map.mpr ⟨y, hy2, rfl⟩) hnd.1
      · rcases List.mem_cons.mp hy with rfl | hy2
        · exact absurd (by rw [← hfst]; exact List.mem_map.mpr ⟨x, hx2, rfl⟩) hnd.1
        · exact ih hnd.2 x hx2 y hy2 hfst

theorem mem_of_getLast_eq_some {α : Type} {l : List α} {a : α}
    (h : l.getLast? = some a) : a ∈ l := by
  induction l using List.reverseRecOn with
  | nil => cases h
  | append_singleton l2 b _ =>
      rw [List.getLast?_concat] at h
      injection h with h2
      subst h2
      simp

/-- The last value of a key present in the sequence is one of the values
the sequence pairs with that key. -/
theorem lastVal_mem {pvs : List (List String × String)} {p : List String}
    {v : String} (h : lastVal pvs p = some v) : (p, v) ∈ pvs := by
  unfold lastVal at h
  cases hg : (pvs.filter (fun pv => pv.1 = p)).getLast? with
  | none => rw [hg] at h; cases h
  | some x =>
      rw [hg] at h
      injection h with h2
      have hx := List.mem_filter.mp (mem_of_getLast_eq_some hg)
      have hx1 : x.1 = p := by simpa using hx.2
      have hx3 : x = (p, v) := by
        obtain ⟨x1, x2⟩ := x
        simp only at hx1 h2
        rw [hx1, h2]
      rw [← hx3]
      exact hx.1

/-- Replaying the joined lines of a list of nonempty clean token lists
recovers exactly those token lists, in the same order. -/
theorem importReplaySeq_joinParams :
    ∀ tls : List (List String),
      (∀ ts ∈ tls, ts ≠ [] ∧ ∀ t ∈ ts, cleanToken t) →
      ∃ seq, importReplaySeq (tls.map JoinParams) = some seq ∧
        seq.map (fun pr => pr.1 :: pr.2) = tls := by
  intro tls
  induction tls with
  | nil => intro _; exact ⟨[], rfl, rfl⟩
  | cons ts rest ih =>
      intro h
      obtain ⟨hne, hclean⟩ := h ts (by simp)
      obtain ⟨seq2, hseq2, hmap2⟩ := ih (fun ts2 h2 => h ts2 (by simp [h2]))
      cases ts with
      | nil => exact absurd rfl hne
      | cons name params =>
          refine ⟨(name, params) :: seq2, ?_, by simp [hmap2]⟩
          have hsp : shlexSplit (JoinParams (name :: params))
              = some (name :: params) :=
            shlexSplit_joinParams _ (by simp) hclean
          show importReplaySeq
              (JoinParams (name :: params) :: rest.map JoinParams) = _
          simp [importReplaySeq, hsp, hseq2]

/-- Claim C4: during `import_downloaded_filter` / `load_input_filter`, the
persisted change script (the flatten of the change trie) is replayed
strictly in file order: `importReplaySeq` succeeds and returns exactly the
flattened `(name, params)` lines in the order
`ConvertChangesDictToFunctionList` emitted them, and that order is the
first-insertion order of the keys — the flatten of the fold equals the
flatten of the fold of the first-insertion/last-value compacted sequence —
never most-recent-update order. -/
theorem C4_replay_order (info : String → Option Nat)
    (cmds : List (List String)) (pvs : List (List String × String))
    (h : cmdsKV info cmds = some pvs)
    (hclean : ∀ pv ∈ pvs, (∀ t ∈ pv.1, cleanToken t) ∧ cleanToken pv.2) :
    ∃ seq,
      importReplaySeq (ConvertChangesDictToFunctionList (foldP pvs []))
        = some seq ∧
      seq.map (fun pr => pr.1 :: pr.2)
        = ConvertChangesDictToFunctionListRec [] (.node (foldP pvs [])) ∧
      ConvertChangesDictToFunctionListRec [] (.node (foldP pvs []))
        = ConvertChangesDictToFunctionListRec []
            (.node (foldP (compactPairs pvs) [])) := by
  have hgood := cmdsKV_pathOk info cmds pvs h
  have hD : DictOk info (foldP pvs []) :=
    dictOk_foldP info pvs [] (dictOk_nil info) hgood
  have hflat : ConvertChangesDictToFunctionListRec [] (.node (foldP pvs []))
      = (childrenPaths (foldP pvs [])).map (fun pv => pv.1 ++ [pv.2]) := by
    rw [convertRec_eq_paths]
    show (childrenPaths (foldP pvs [])).map _ = _
    simp
  have htok : ∀ ts ∈ ConvertChangesDictToFunctionListRec []
      (.node (foldP pvs [])), ts ≠ [] ∧ ∀ t ∈ ts, cleanToken t := by
    rw [hflat]
    intro ts hts
    obtain ⟨pv2, hpv2, rfl⟩ := List.mem_map.mp hts
    have hk : pv2.1 ∈ keysOf pvs := by
      rcases childrenPaths_foldP_subset pvs [] pv2 hpv2 with h2 | h2
      · cases h2
      · exact h2
    refine ⟨by simp, ?_⟩
    intro t ht
    rcases List.mem_append.mp ht with htp | htv
    · obtain ⟨pv, hpv, hfst⟩ := List.mem_map.mp hk
      exact (hclean pv hpv).1 t (by rw [hfst]; exact htp)
    · have htv2 : t = pv2.2 := by simpa using htv
      have hsome : (lastVal pvs pv2.1).isSome = true :=
        (lastVal_isSome_iff _ _).mpr hk
      obtain ⟨w, hw⟩ := Option.isSome_iff_exists.mp hsome
      have hleaf : leafAt (foldP pvs []) pv2.1 = some w :=
        leafAt_foldP_lastVal info pvs hgood pv2.1 w hw
      have hmemw : ((pv2.1, w) : List String × String)
          ∈ childrenPaths (foldP pvs []) :=
        leafAt_some_mem_paths _ _ _ hleaf
      have heq : pv2 = (pv2.1, w) :=
        eq_of_mem_nodup_fst (dictOk_paths_nodup hD) pv2 hpv2 (pv2.1, w)
          hmemw rfl
      have hvw : pv2.2 = w := by rw [heq]
      rw [htv2, hvw]
      exact (hclean (pv2.1, w) (lastVal_mem hw)).2
  obtain ⟨seq, hseq, hmap⟩ := importReplaySeq_joinParams _ htok
  refine ⟨seq, hseq, hmap, ?_⟩
  rw [foldP_eq_foldP_compact info pvs hgood]

/-- Witness for C4: a script with an interleaved repeated key replays in
first-insertion order with the last value. -/
theorem C4_replay_order_witness :
    ∃ seq,
      importReplaySeq (ConvertChangesDictToFunctionList
          (foldP [(["set_currency_to_tier", "Chromatic Orb"], "3"),
                  (["set_hide_maps_below_tier"], "10"),
                  (["set_currency_to_tier", "Chromatic Orb"], "5")] []))
        = some seq ∧
      seq.map (fun pr => pr.1 :: pr.2)
        = ConvertChangesDictToFunctionListRec []
            (.node (foldP [(["set_currency_to_tier", "Chromatic Orb"], "3"),
                           (["set_hide_maps_below_tier"], "10"),
                           (["set_currency_to_tier", "Chromatic Orb"], "5")] [])) ∧
      ConvertChangesDictToFunctionListRec []
          (.node (foldP [(["set_currency_to_tier", "Chromatic Orb"], "3"),
                         (["set_hide_maps_below_tier"], "10"),
                         (["set_currency_to_tier", "Chromatic Orb"], "5")] []))
        = ConvertChangesDictToFunctionListRec []
            (.node (foldP (compactPairs
                [(["set_currency_to_tier", "Chromatic Orb"], "3"),
                 (["set_hide_maps_below_tier"], "10"),
                 (["set_currency_to_tier", "Chromatic Orb"], "5")]) [])) :=
  C4_replay_order numParamsForMatchOf
    [["set_currency_to_tier", "Chromatic Orb", "3"],
     ["set_hide_maps_below_tier", "10"],
     ["set_currency_to_tier", "Chromatic Orb", "5"]]
    [(["set_currency_to_tier", "Chromatic Orb"], "3"),
     (["set_hide_maps_below_tier"], "10"),
     (["set_currency_to_tier", "Chromatic Orb"], "5")]
    (by rfl) (by decide)

/-! ### Claim C8: match-arity bounds and index safety -/

/-- The parameter-list defaulting performed by the dispatcher before the
command is recorded: `set_basetype_visibility` (backend_cli.py:964-965) and
`set_flask_visibility` (backend_cli.py:1018-1019) append `0` when only two
parameters were given, and `add_remove_socket_rule` (backend_cli.py:1069-1070)
inserts `any` at index 1 when only two parameters were given.  All other
commands leave their parameters untouched. -/
def normalizeParams (functionName : String) (functionParams : List String) :
    List String :=
  if (functionName = "set_basetype_visibility"
        ∨ functionName = "set_flask_visibility") ∧ functionParams.length = 2 then
    functionParams ++ ["0"]
  else if functionName = "add_remove_socket_rule"
      ∧ functionParams.length = 2 then
    functionParams.insertIdx 1 "any"
  else functionParams

/-- Length of the defaulted parameter list, as a function of the original
length alone. -/
def normalizedLength (functionName : String) (n : Nat) : Nat :=
  if (functionName = "set_basetype_visibility"
        ∨ functionName = "set_flask_visibility") ∧ n = 2 then n + 1
  else if functionName = "add_remove_socket_rule" ∧ n = 2 then n + 1
  else n

theorem normalizeParams_length (name : String) (params : List String) :
    (normalizeParams name params).length
      = normalizedLength name params.length := by
  unfold normalizeParams normalizedLength
  split_ifs with h1 h2
  · simp
  · exact List.length_insertIdx 1 params (by omega)
  · rfl

theorem cmdKV_isSome_of_length {info : String → Option Nat} {name : String}
    {k : Nat} {ts : List String} (hinfo : info name = some k)
    (hlen : k + 2 ≤ (name :: ts).length) :
    (cmdKV info (name :: ts)).isSome = true := by
  simp only [cmdKV, hinfo]
  rw [dif_pos hlen]
  rfl

/-- The decidable core of claim C8, phrased over parameter-list lengths. -/
def arityOkB (name : String) (fi : FunctionInfo) : Bool :=
  match fi.NumParamsForMatch with
  | none => false
  | some k =>
      decide (numParamsForMatchOf name = some k) &&
      decide (fi.NumParamsOptions.maximum = some (k + 1)) &&
      fi.NumParamsOptions.all
        (fun n => decide (k + 2 ≤ 1 + normalizedLength name n))

/-- Claim C8: every command with `ModifiesFilter` true has a defined
`NumParamsForMatch` `k` with `max(NumParamsOptions) = k + 1`; after the
dispatcher appends default values for omitted optional parameters
(`normalizeParams`), every recorded token list has at least `k + 2`
tokens, so the leaf-storing index `function_tokens[k + 1]` in
`AddFunctionToChangesDict` is always in bounds (`cmdKV` succeeds). -/
theorem C8_match_arity_safety :
    ∀ pr ∈ kFunctionInfoMap, pr.2.ModifiesFilter = true →
      ∃ k, pr.2.NumParamsForMatch = some k ∧
        numParamsForMatchOf pr.1 = some k ∧
        pr.2.NumParamsOptions.maximum = some (k + 1) ∧
        ∀ params : List String, params.length ∈ pr.2.NumParamsOptions →
          k + 2 ≤ (pr.1 :: normalizeParams pr.1 params).length ∧
          (cmdKV numParamsForMatchOf
              (pr.1 :: normalizeParams pr.1 params)).isSome = true := by
  have hcore : ∀ pr ∈ kFunctionInfoMap, pr.2.ModifiesFilter = true →
      arityOkB pr.1 pr.2 = true := by decide
  intro pr hpr hmod
  have hb := hcore pr hpr hmod
  unfold arityOkB at hb
  cases hk : pr.2.NumParamsForMatch with
  | none => rw [hk] at hb; cases hb
  | some k =>
      rw [hk] at hb
      simp only [Bool.and_eq_true, decide_eq_true_eq, List.all_eq_true] at hb
      obtain ⟨⟨h1, h2⟩, h3⟩ := hb
      refine ⟨k, rfl, h1, h2, ?_⟩
      intro params hlen
      have hle : k + 2 ≤ 1 + normalizedLength pr.1 params.length := by
        simpa using h3 params.length hlen
      have hnl := normalizeParams_length pr.1 params
      have hlen2 : k + 2 ≤ (pr.1 :: normalizeParams pr.1 params).length := by
        simp only [List.length_cons, hnl]
        omega
      exact ⟨hlen2, cmdKV_isSome_of_length h1 hlen2⟩

/-- Witness for C8 at `set_basetype_visibility`, the paradigmatic command
with an optional trailing parameter. -/
theorem C8_match_arity_safety_witness :
    (("set_basetype_visibility", (⟨[2, 3], true, true, some 2⟩ : FunctionInfo))
        ∈ kFunctionInfoMap ∧
      (⟨[2, 3], true, true, some 2⟩ : FunctionInfo).ModifiesFilter = true) ∧
    ∃ k, ((⟨[2, 3], true, true, some 2⟩ : FunctionInfo)).NumParamsForMatch
          = some k ∧
      numParamsForMatchOf "set_basetype_visibility" = some k ∧
      ((⟨[2, 3], true, true, some 2⟩ : FunctionInfo)).NumParamsOptions.maximum
          = some (k + 1) ∧
      ∀ params : List String,
        params.length
            ∈ ((⟨[2, 3], true, true, some 2⟩ : FunctionInfo)).NumParamsOptions →
        k + 2 ≤ ("set_basetype_visibility"
            :: normalizeParams "set_basetype_visibility" params).length ∧
        (cmdKV numParamsForMatchOf ("set_basetype_visibility"
            :: normalizeParams "set_basetype_visibility" params)).isSome
          = true :=
  ⟨⟨by decide, by decide⟩,
    C8_match_arity_safety
      ("set_basetype_visibility", (⟨[2, 3], true, true, some 2⟩ : FunctionInfo))
      (by decide) (by decide)⟩

/-! ### Claim C9: guarded versus unguarded trailing-newline removal -/

/-- Modelled from the spec: `consts.py` is not under `src/`; the spec fixes
the currency tiers at `t1..t9` (tier `t ∈ [1,9]`), so the loop bound
`consts.kNumCurrencyTiersExcludingScrolls` is 9. -/
def kNumCurrencyTiersExcludingScrolls : Nat := 9

/-- Left-to-right concatenation of a list of strings, as the `+=` loops
and `''.join` of the output-building branches produce it. -/
def joinStrings : List String → String
  | [] => ""
  | s :: rest => s ++ joinStrings rest

/-- One tier's contribution to `get_all_currency_tiers`
(backend_cli.py:718-720): `currency_name + ';' + str(tier) + '\n'` for
each currency name in the tier. -/
def currencyTierEntries (currencyNames : Nat → List String) (tier : Nat) :
    String :=
  joinStrings ((currencyNames tier).map
    (fun name => name ++ ";" ++ Nat.repr tier ++ "\n"))

/-- The accumulated `output_string` of `get_all_currency_tiers`: tiers
`1..kNumCurrencyTiersExcludingScrolls` in order. -/
def currencyTierOutput (currencyNames : Nat → List String) : String :=
  joinStrings ((List.range kNumCurrencyTiersExcludingScrolls).map
    (fun i => currencyTierEntries currencyNames (i + 1)))

/-- The `get_all_currency_tiers` branch (backend_cli.py:711-722).  The
final-newline removal indexes `output_string[-1]` without a length guard:
on an empty output Python raises IndexError (modelled as `none`). -/
def get_all_currency_tiers (currencyNames : Nat → List String) :
    Option String :=
  match (currencyTierOutput currencyNames).data.getLast? with
  | none => none
  | some c =>
      some (if c = Char.ofNat 10
            then String.mk (currencyTierOutput currencyNames).data.dropLast
            else currencyTierOutput currencyNames)

/-- The `get_all_visible_basetypes` branch (backend_cli.py:985-1002),
parameterized over `loot_filter.GetAllVisibleBaseTypes(rare_flag=False)`
and the already-subtracted rare-only list (the Python builds the latter as
`list(set(rare) - set(any))`, in unspecified order).  The final-newline
removal is guarded by `len(output_string) > 0`. -/
def get_all_visible_basetypes
    (visibleBaseTypesAny visibleBaseTypesRareOnly : List String) : String :=
  let output_string :=
    joinStrings (visibleBaseTypesAny.map (fun b => b ++ ";0\n"))
      ++ joinStrings (visibleBaseTypesRareOnly.map (fun b => b ++ ";1\n"))
  if 0 < output_string.length
      ∧ output_string.data.getLast? = some (Char.ofNat 10) then
    String.mk output_string.data.dropLast
  else output_string

/-- The `get_all_visible_flasks` branch (backend_cli.py:1040-1055),
parameterized over the two visible-flask lists.  The final-newline removal
is guarded by `len(output_string) > 0`. -/
def get_all_visible_flasks
    (visibleFlaskTypesAnyIlvl visibleFlaskTypesHighIlvl : List String) :
    String :=
  let output_string :=
    joinStrings (visibleFlaskTypesAnyIlvl.map (fun b => b ++ ";0\n"))
      ++ joinStrings (visibleFlaskTypesHighIlvl.map (fun b => b ++ ";1\n"))
  if 0 < output_string.length
      ∧ output_string.data.getLast? = some (Char.ofNat 10) then
    String.mk output_string.data.dropLast
  else output_string

theorem joinStrings_data (l : List String) :
    (joinStrings l).data = (l.map String.data).flatten := by
  induction l with
  | nil => rfl
  | cons s rest ih => simp [joinStrings, String.data_append, ih]

theorem joinStrings_data_nil_iff (l : List String) :
    (joinStrings l).data = [] ↔ ∀ s ∈ l, s.data = [] := by
  rw [joinStrings_data, List.flatten_eq_nil_iff]
  constructor
  · intro h s hs
    exact h s.data (List.mem_map.mpr ⟨s, hs, rfl⟩)
  · intro h ds hds
    obtain ⟨s, hs, rfl⟩ := List.mem_map.mp hds
    exact h s hs

/-- Claim C9: `get_all_currency_tiers` fails (IndexError on
`output_string[-1]`) exactly on empty output — every tier `1..9` empty —
and succeeds as soon as any tier holds a currency name, whereas the
guarded `get_all_visible_basetypes` and `get_all_visible_flasks` return
the empty string when there is nothing to report. -/
theorem C9_trailing_newline_guards :
    (∀ currencyNames : Nat → List String,
      (∀ tier, 1 ≤ tier → tier ≤ kNumCurrencyTiersExcludingScrolls →
        currencyNames tier = []) →
      get_all_currency_tiers currencyNames = none) ∧
    (∀ (currencyNames : Nat → List String) (tier : Nat) (name : String),
      1 ≤ tier → tier ≤ kNumCurrencyTiersExcludingScrolls →
      name ∈ currencyNames tier →
      (get_all_currency_tiers currencyNames).isSome = true) ∧
    get_all_visible_basetypes [] [] = "" ∧
    get_all_visible_flasks [] [] = "" := by
  refine ⟨?_, ?_, by decide, by decide⟩
  · intro c hc
    have hdata : (currencyTierOutput c).data = [] := by
      rw [currencyTierOutput, joinStrings_data_nil_iff]
      intro s hs
      obtain ⟨i, hi, rfl⟩ := List.mem_map.mp hs
      have hie : c (i + 1) = [] :=
        hc (i + 1) (by omega) (List.mem_range.mp hi)
      unfold currencyTierEntries
      rw [hie]
      rfl
    unfold get_all_currency_tiers
    rw [hdata]
    rfl
  · intro c tier name h1 h2 hmem
    have hne : (currencyTierOutput c).data ≠ [] := by
      rw [currencyTierOutput]
      intro hnil
      have hall := (joinStrings_data_nil_iff _).mp hnil
      have hmemtier : currencyTierEntries c tier
          ∈ (List.range kNumCurrencyTiersExcludingScrolls).map
            (fun i => currencyTierEntries c (i + 1)) := by
        refine List.mem_map.mpr ⟨tier - 1, List.mem_range.mpr (by omega), ?_⟩
        have : tier - 1 + 1 = tier := by omega
        rw [this]
      have hentry := hall _ hmemtier
      rw [currencyTierEntries, joinStrings_data_nil_iff] at hentry
      have hline := hentry (name ++ ";" ++ Nat.repr tier ++ "\n")
        (List.mem_map.mpr ⟨name, hmem, rfl⟩)
      rw [String.data_append] at hline
      have : (("\n" : String)).data = [Char.ofNat 10] := rfl
      rw [this] at hline
      simp at hline
    unfold get_all_currency_tiers
    cases hg : (currencyTierOutput c).data.getLast? with
    | none =>
        rw [List.getLast?_eq_none_iff] at hg
        exact absurd hg hne
    | some ch => rfl

/-! ### Claims C5, C7, C10: the dispatcher epilogue, error kinds, exit codes

The Python exception classes raised by the code under `src/`:
`ValueError` (failed `int(...)` / failed `name, *params` unpacking /
`shlex` tokenizer errors), `KeyError` (missing dict key), `IndexError`
(out-of-range indexing), `RuntimeError` (raised by `Error(...)`, by
`CheckNumParams` via `Error`, and by the unmatched-command branch). -/

inductive PyErr where
  | valueError
  | keyError
  | indexError
  | runtimeError
  deriving DecidableEq

/-- The externally observable file-writing actions of
`DelegateFunctionCall`: `loot_filter.SaveToFile()`, `WriteOutput`,
`AppendFunctionOutput`, and `UpdateProfileChangesFile`. -/
inductive Ev where
  | save
  | writeOut (s : String)
  | appendOut (s : String)
  | updChanges (name : String) (params : List String)
  deriving DecidableEq

/-- A call's trace: the events it performed, in order, and the exception
it raised (if any) after performing them. -/
structure DelegateResult where
  events : List Ev
  error : Option PyErr
  deriving DecidableEq

/-- Python sequencing: run `r`; if it raised, stop with its trace,
otherwise continue with `k` and prepend the events of `r`. -/
def andThen (r : DelegateResult) (k : Unit → DelegateResult) :
    DelegateResult :=
  match r.error with
  | some _ => r
  | none => ⟨r.events ++ (k ()).events, (k ()).error⟩

/-- The dispatcher epilogue (backend_cli.py:1152-1167).  `in_batch`:
append the output (unless suppressed).  Otherwise: write the output
(unless the command was `run_batch`), then look up `ModifiesFilter`
(KeyError on an unknown name) and save the filter for a mutator.  In both
cases, a mutator with output not suppressed is recorded via
`UpdateProfileChangesFile` with its defaulted parameters
(`function_params[:]` after the branch body's in-place defaulting, i.e.
`normalizeParams`); `upd` gives the exception (if any) that the changes
file rewrite raises. -/
def delegateEpilogue (upd : String → List String → Option PyErr)
    (function_name : String) (function_params : List String)
    (output_string : String) (in_batch suppress_output : Bool) :
    DelegateResult :=
  if in_batch then
    andThen ⟨if suppress_output then [] else [Ev.appendOut output_string],
        none⟩ (fun _ =>
      match modifiesFilterOf function_name with
      | none => ⟨[], some PyErr.keyError⟩
      | some mf =>
          if mf && !suppress_output then
            match upd function_name
                (normalizeParams function_name function_params) with
            | some e => ⟨[], some e⟩
            | none => ⟨[Ev.updChanges function_name
                (normalizeParams function_name function_params)], none⟩
          else ⟨[], none⟩)
  else
    andThen ⟨if function_name = "run_batch" then []
        else [Ev.writeOut output_string], none⟩ (fun _ =>
      match modifiesFilterOf function_name with
      | none => ⟨[], some PyErr.keyError⟩
      | some mf =>
          andThen ⟨if mf then [Ev.save] else [], none⟩ (fun _ =>
            if mf && !suppress_output then
              match upd function_name
                  (normalizeParams function_name function_params) with
              | some e => ⟨[], some e⟩
              | none => ⟨[Ev.updChanges function_name
                  (normalizeParams function_name function_params)], none⟩
            else ⟨[], none⟩))

/-- A `DelegateFunctionCall` on a non-recursive command: the body of the
matched `elif` branch (backend_cli.py:517-1151) computes `output_string`
or raises — the bodies call only `loot_filter` methods and never
`SaveToFile`, `WriteOutput`, `AppendFunctionOutput` or
`UpdateProfileChangesFile`, so they are abstracted as the oracle `exec` —
followed by the epilogue. -/
def delegateSimple (exec : String → List String → Except PyErr String)
    (upd : String → List String → Option PyErr)
    (function_name : String) (function_params : List String)
    (in_batch suppress_output : Bool) : DelegateResult :=
  match exec function_name function_params with
  | .error e => ⟨[], some e⟩
  | .ok output_string =>
      delegateEpilogue upd function_name function_params output_string
        in_batch suppress_output

/-- The `run_batch` loop (backend_cli.py:572-583): skip blank lines,
tokenize (`shlex.split`, then `name, *params` unpacking), look up
`ModifiesFilter` (KeyError on an unknown name) to track
`contains_mutator`, dispatch with `in_batch=True, suppress_output=False`;
after the loop, save the filter once iff the batch contained a mutator. -/
def runBatchLines (exec : String → List String → Except PyErr String)
    (upd : String → List String → Option PyErr) :
    List String → Bool → DelegateResult
  | [], contains_mutator =>
      if contains_mutator then ⟨[Ev.save], none⟩ else ⟨[], none⟩
  | line :: rest, contains_mutator =>
      if pyStrip line = "" then
        runBatchLines exec upd rest contains_mutator
      else
        match shlexSplit line with
        | none => ⟨[], some PyErr.valueError⟩
        | some [] => ⟨[], some PyErr.valueError⟩
        | some (name :: params) =>
            match modifiesFilterOf name with
            | none => ⟨[], some PyErr.keyError⟩
            | some mf =>
                andThen (delegateSimple exec upd name params true false)
                  (fun _ =>
                    runBatchLines exec upd rest (contains_mutator || mf))

/-- The `run_batch` branch of `DelegateFunctionCall`
(backend_cli.py:559-583) as called from the top level (`in_batch=False`,
`suppress_output=False`): `CheckNumParams(function_params, 0)` (a
`RuntimeError` via `Error` on a count mismatch), `WriteOutput('')`, the
batch loop, then the dispatcher epilogue for the name `run_batch` itself
(which writes nothing and saves nothing, as `run_batch` is not a
mutator). -/
def run_batch (exec : String → List String → Except PyErr String)
    (upd : String → List String → Option PyErr)
    (function_params : List String) (inputLines : List String) :
    DelegateResult :=
  if function_params.length ≠ 0 then ⟨[], some PyErr.runtimeError⟩
  else
    andThen ⟨[Ev.writeOut ""], none⟩ (fun _ =>
      andThen (runBatchLines exec upd inputLines false) (fun _ =>
        delegateEpilogue upd ("run_batch") function_params "" false false))

/-- Whether a batch line is a well-formed mutator line: non-blank,
tokenizes, and its command name has `ModifiesFilter` true. -/
def mutLine (line : String) : Bool :=
  if pyStrip line = "" then false
  else match shlexSplit line with
    | some (name :: _) =>
        match modifiesFilterOf name with
        | some true => true
        | _ => false
    | _ => false

/-! C7 branch bodies. -/

/-- `int(s)` succeeds in Python iff, after stripping surrounding
whitespace, `s` is an optional sign followed by digits, with single
underscores allowed between digits. -/
def intDigitsTail : List Char → Bool
  | [] => true
  | c :: rest =>
      if c.isDigit then intDigitsTail rest
      else if c = '_' then
        match rest with
        | [] => false
        | c2 :: rest2 => c2.isDigit && intDigitsTail rest2
      else false

def intDigits : List Char → Bool
  | [] => false
  | c :: rest => c.isDigit && intDigitsTail rest

/-- Whether Python `int(s)` succeeds (otherwise it raises `ValueError`). -/
def pyIntOk (s : String) : Bool :=
  match (pyStrip s).data with
  | [] => false
  | c :: rest =>
      if c = '+' ∨ c = '-' then intDigits rest else intDigits (c :: rest)

/-- The parameter validation of the `set_currency_to_tier` branch
(backend_cli.py:691-701): `CheckNumParams(function_params, 2)` raises
`RuntimeError` via `Error` on a count mismatch, then
`int(function_params[1])` raises `ValueError` on a non-numeric string;
`.ok ()` means control reaches the `loot_filter.SetCurrencyToTier` call
(whose class is outside `src/`). -/
def set_currency_to_tier_branch (function_params : List String) :
    Except PyErr Unit :=
  match function_params with
  | [_currency_name, tier_str] =>
      if pyIntOk tier_str then .ok () else .error .valueError
  | _ => .error .runtimeError

/-- The parameter validation of the `set_rule_visibility` branch
(backend_cli.py:672-689): `CheckNumParams(function_params, 3)` raises
`RuntimeError` via `Error` on a count mismatch, then
`visibility_map[visibility_string]` raises `KeyError` unless the token is
one of `show`, `hide`, `disable`; `.ok ()` means the visibility argument
is valid (the `loot_filter.GetRule` receiver is outside `src/`). -/
def set_rule_visibility_branch (function_params : List String) :
    Except PyErr Unit :=
  match function_params with
  | [_type_tag, _tier_tag, visibility_string] =>
      if visibility_string = "show" ∨ visibility_string = "hide"
          ∨ visibility_string = "disable" then .ok ()
      else .error .keyError
  | _ => .error .runtimeError

/-- The writes `main` (backend_cli.py:1220-1229) performs on
`backend_cli.exit_code`, in order: `-1` before any other work, then —
after `main_impl` either returns or raises `err` — exactly one final
code, `0` on a normal return and `1` on an exception (which is
re-raised). -/
def mainExitCodeWrites (err : Option PyErr) : List String :=
  "-1" :: (match err with
    | none => ["0"]
    | some _ => ["1"])

theorem save_not_mem_epilogue_inBatch
    (upd : String → List String → Option PyErr) (n : String)
    (ps : List String) (out : String) (so : Bool) :
    Ev.save ∉ (delegateEpilogue upd n ps out true so).events := by
  cases hmf : modifiesFilterOf n with
  | none =>
      cases so <;> simp [delegateEpilogue, andThen, hmf]
  | some mf =>
      cases hu : upd n (normalizeParams n ps) with
      | none =>
          cases so <;> cases mf <;>
            simp [delegateEpilogue, andThen, hmf, hu]
      | some e =>
          cases so <;> cases mf <;>
            simp [delegateEpilogue, andThen, hmf, hu]

theorem count_save_delegateSimple_inBatch
    (exec : String → List String → Except PyErr String)
    (upd : String → List String → Option PyErr) (n : String)
    (ps : List String) (so : Bool) :
    (delegateSimple exec upd n ps true so).events.count Ev.save = 0 := by
  unfold delegateSimple
  cases exec n ps with
  | error e => rfl
  | ok out =>
      rw [List.count_eq_zero]
      exact save_not_mem_epilogue_inBatch upd n ps out so

theorem runBatchLines_count_save
    (exec : String → List String → Except PyErr String)
    (upd : String → List String → Option PyErr) :
    ∀ (lines : List String) (cm : Bool),
      ((runBatchLines exec upd lines cm).error.isSome = true →
        (runBatchLines exec upd lines cm).events.count Ev.save = 0) ∧
      ((runBatchLines exec upd lines cm).error = none →
        (runBatchLines exec upd lines cm).events.count Ev.save
          = cond (cm || lines.any mutLine) 1 0) := by
  intro lines
  induction lines with
  | nil =>
      intro cm
      cases cm <;>
        simp [runBatchLines]
  | cons line rest ih =>
      intro cm
      by_cases hblank : pyStrip line = ""
      · have hml : mutLine line = false := by simp [mutLine, hblank]
        simp only [runBatchLines, if_pos hblank, List.any_cons, hml,
          Bool.false_or]
        exact ih cm
      · simp only [runBatchLines, if_neg hblank]
        cases hsp : shlexSplit line with
        | none => simp
        | some ts =>
            cases ts with
            | nil => simp
            | cons name params =>
                cases hmf : modifiesFilterOf name with
                | none => simp [hmf]
                | some mf =>
                    simp only [hmf]
                    have hml : mutLine line = mf := by
                      cases mf <;> simp [mutLine, hblank, hsp, hmf]
                    cases herr : (delegateSimple exec upd name params
                        true false).error with
                    | some e =>
                        constructor
                        · intro _
                          simp only [andThen, herr]
                          exact count_save_delegateSimple_inBatch
                            exec upd name params false
                        · intro hnone
                          simp only [andThen, herr] at hnone
                          cases hnone
                    | none =>
                        have hds := count_save_delegateSimple_inBatch
                          exec upd name params false
                        constructor
                        · intro hsome
                          simp only [andThen, herr] at hsome ⊢
                          rw [List.count_append, hds,
                            (ih (cm || mf)).1 hsome]
                        · intro hnone
                          simp only [andThen, herr] at hnone ⊢
                          rw [List.count_append, hds,
                            (ih (cm || mf)).2 hnone]
                          simp only [List.any_cons, hml]
                          rw [Nat.zero_add, Bool.or_assoc]

theorem epilogue_run_batch_trivial
    (upd : String → List String → Option PyErr) (params : List String) :
    delegateEpilogue upd ("run_batch") params "" false false
      = ⟨[], none⟩ := rfl

/-- Claim C5: within one `run_batch` invocation the filter is saved at
most once: a command dispatched with `in_batch=True` never emits a save
from its epilogue; the whole batch's trace carries at most one
`Ev.save`; and a successful batch saves exactly once if some executed
line is a mutator (`ModifiesFilter` true) and not at all otherwise. -/
theorem C5_run_batch_single_save
    (exec : String → List String → Except PyErr String)
    (upd : String → List String → Option PyErr)
    (function_params : List String) (inputLines : List String) :
    (∀ (name : String) (params : List String) (so : Bool),
      Ev.save ∉ (delegateSimple exec upd name params true so).events) ∧
    (run_batch exec upd function_params inputLines).events.count Ev.save
      ≤ 1 ∧
    ((run_batch exec upd function_params inputLines).error = none →
      (run_batch exec upd function_params inputLines).events.count Ev.save
        = cond (inputLines.any mutLine) 1 0) := by
  have hnosave : ∀ (name : String) (params : List String) (so : Bool),
      Ev.save ∉ (delegateSimple exec upd name params true so).events := by
    intro name params so
    unfold delegateSimple
    cases exec name params with
    | error e => simp
    | ok out => exact save_not_mem_epilogue_inBatch upd name params out so
  refine ⟨hnosave, ?_, ?_⟩ <;>
    unfold run_batch
  · by_cases hlen : function_params.length ≠ 0
    · rw [if_pos hlen]
      simp
    · rw [if_neg hlen]
      rw [epilogue_run_batch_trivial]
      cases herr : (runBatchLines exec upd inputLines false).error with
      | some e =>
          simp only [andThen, herr]
          have h0 := (runBatchLines_count_save exec upd inputLines false).1
            (by rw [herr]; rfl)
          simp [List.count_cons, h0]
      | none =>
          simp only [andThen, herr]
          have h1 := (runBatchLines_count_save exec upd inputLines false).2
            herr
          simp only [Bool.false_or] at h1
          simp [List.count_cons, List.count_append, h1]
          cases inputLines.any mutLine <;> simp
  · intro hnone
    by_cases hlen : function_params.length ≠ 0
    · rw [if_pos hlen] at hnone ⊢
      cases hnone
    · rw [if_neg hlen] at hnone ⊢
      rw [epilogue_run_batch_trivial] at hnone ⊢
      cases herr : (runBatchLines exec upd inputLines false).error with
      | some e =>
          rw [show (andThen ⟨[Ev.writeOut ""], none⟩ (fun _ =>
              andThen (runBatchLines exec upd inputLines false)
                (fun _ => ⟨[], none⟩))).error
              = some e from by simp [andThen, herr]] at hnone
          cases hnone
      | none =>
          have h1 := (runBatchLines_count_save exec upd inputLines false).2
            herr
          simp only [Bool.false_or] at h1
          simp [andThen, herr, List.count_cons, List.count_append, h1]

/-- Witness for C5 on a concrete batch — one mutator line, one query
line, bodies and changes-file rewrites succeeding. -/
theorem C5_run_batch_single_save_witness :
    (∀ (name : String) (params : List String) (so : Bool),
      Ev.save ∉ (delegateSimple (fun _ _ => Except.ok "")
          (fun _ _ => none) name params true so).events) ∧
    (run_batch (fun _ _ => Except.ok "") (fun _ _ => none) []
        ["set_hide_maps_below_tier 14",
         "get_hide_maps_below_tier"]).events.count Ev.save ≤ 1 ∧
    ((run_batch (fun _ _ => Except.ok "") (fun _ _ => none) []
        ["set_hide_maps_below_tier 14",
         "get_hide_maps_below_tier"]).error = none →
      (run_batch (fun _ _ => Except.ok "") (fun _ _ => none) []
          ["set_hide_maps_below_tier 14",
           "get_hide_maps_below_tier"]).events.count Ev.save
        = cond (["set_hide_maps_below_tier 14",
                 "get_hide_maps_below_tier"].any mutLine) 1 0) :=
  C5_run_batch_single_save (fun _ _ => Except.ok "") (fun _ _ => none) []
    ["set_hide_maps_below_tier 14", "get_hide_maps_below_tier"]

/-- Claim C7: a non-numeric tier string given to `set_currency_to_tier`
surfaces as `ValueError` and an unrecognized visibility token given to
`set_rule_visibility` surfaces as `KeyError` — both caller-input error
kinds distinct from `RuntimeError`, the kind raised for internal defects
(`Error`, `CheckNumParams`, the unmatched-command branch). -/
theorem C7_invalid_param_errors
    (currency_name type_tag tier_tag tier_str visibility_string : String)
    (htier : pyIntOk tier_str = false)
    (hvis : visibility_string ≠ "show" ∧ visibility_string ≠ "hide"
      ∧ visibility_string ≠ "disable") :
    set_currency_to_tier_branch [currency_name, tier_str]
      = .error .valueError ∧
    set_rule_visibility_branch [type_tag, tier_tag, visibility_string]
      = .error .keyError ∧
    PyErr.valueError ≠ PyErr.runtimeError ∧
    PyErr.keyError ≠ PyErr.runtimeError ∧
    PyErr.valueError ≠ PyErr.keyError := by
  refine ⟨?_, ?_, by decide, by decide, by decide⟩
  · unfold set_currency_to_tier_branch
    simp [htier]
  · unfold set_rule_visibility_branch
    simp [hvis.1, hvis.2.1, hvis.2.2]

/-- Witness for C7 at the concrete invalid inputs `abc` (tier) and
`shwo` (visibility token). -/
theorem C7_invalid_param_errors_witness :
    pyIntOk ("abc") = false ∧
    (("shwo" : String) ≠ "show" ∧ ("shwo" : String) ≠ "hide"
      ∧ ("shwo" : String) ≠ "disable") ∧
    (set_currency_to_tier_branch ["Chromatic Orb", "abc"]
        = .error .valueError ∧
      set_rule_visibility_branch ["rare->redeemer", "t12", "shwo"]
        = .error .keyError ∧
      PyErr.valueError ≠ PyErr.runtimeError ∧
      PyErr.keyError ≠ PyErr.runtimeError ∧
      PyErr.valueError ≠ PyErr.keyError) :=
  ⟨by decide, by decide,
    C7_invalid_param_errors ("Chromatic Orb") ("rare->redeemer") ("t12")
      ("abc") ("shwo") (by decide) (by decide)⟩

/-- Claim C10: `main` writes the in-progress code `-1` to the exit-code
file before any other work and ends having overwritten it with exactly
one final code: `0` exactly when `main_impl` returned normally, `1`
exactly when it raised (the exception is re-raised after the write); the
final content is never `-1`. -/
theorem C10_exit_code_protocol (err : Option PyErr) :
    (mainExitCodeWrites err).head? = some "-1" ∧
    (mainExitCodeWrites err).length = 2 ∧
    ∃ final, (mainExitCodeWrites err).getLast? = some final ∧
      final ≠ "-1" ∧
      (final = "0" ↔ err = none) ∧
      (final = "1" ↔ err.isSome = true) := by
  cases err with
  | none => exact ⟨rfl, rfl, "0", rfl, by decide, by decide⟩
  | some e => exact ⟨rfl, rfl, "1", rfl, by simp, by simp⟩

/-- Witness for C9's universally quantified clauses at concrete inputs:
one currency in tier 1 succeeds; all nine tiers empty fails. -/
theorem C9_trailing_newline_guards_witness :
    get_all_currency_tiers (fun _ => []) = none ∧
    (get_all_currency_tiers
        (fun tier => if tier = 1 then ["Chromatic Orb"] else [])).isSome
      = true :=
  ⟨C9_trailing_newline_guards.1 (fun _ => []) (fun _ _ _ => rfl),
    C9_trailing_newline_guards.2.1
      (fun tier => if tier = 1 then ["Chromatic Orb"] else [])
      1 "Chromatic Orb" (by decide) (by decide) (by decide)⟩

end DLF
